import Mathlib

/-!
Verification of the sensor telemetry relay (Sensor-Sanyam).

This file shallowly embeds the core of the repository:

* the Socket.IO relay and its per-topic bounded history store
  (`src/pages/api/socketio.ts`, mqtt `message` handler and `connection`
  handler),
* the dynamic broker registry (`src/app/api/custom-mqtt-proxy/route.ts`),
* the encrypted-message forwarding endpoint
  (`src/app/api/custom-mqtt-forward/route.ts`), and
* the AES-256-CBC / base64 / JSON codec used between `encryptData`
  (sensor-data route) and `decryptData` (custom-mqtt-forward route).

JavaScript numbers are abstracted as integers (the relay performs no
arithmetic on sensor values: it only checks parseability and stores them);
wall-clock timestamps are passed in explicitly as strings.
-/

/-- Abstraction of a JavaScript numeric sensor value.  The relay never
computes with values, so their exact numeric type is irrelevant; `Int`
keeps every definition executable and decidable. -/
abbrev JSNum := Int

/-- One point of the `history` array kept per topic
(`interface HistoryPoint` in socketio.ts). -/
structure HistoryPoint where
  value : JSNum
  timestamp : String
deriving DecidableEq

/-- One entry of `sensorDataStore` (`interface SensorDataEntry`).
`currentUnit` is optional in the source but every code path that creates
an entry supplies it, so it is modelled as a plain string. -/
structure SensorDataEntry where
  history : List HistoryPoint
  currentUnit : String
deriving DecidableEq

/-- `sensorDataStore : Map<string, SensorDataEntry>`, modelled as an
association list in insertion order (a JS `Map` iterates in insertion
order, which the replay loop relies on). -/
abbrev SensorStore := List (String × SensorDataEntry)

/-- `sensorDataStore.get(topic)`. -/
def storeGet (store : SensorStore) (topic : String) : Option SensorDataEntry :=
  match store with
  | [] => none
  | (t, e) :: rest => if t = topic then some e else storeGet rest topic

/-- `sensorDataStore.set(topic, entry)`: overwrite in place if the key is
present, append at the end otherwise (JS `Map` semantics). -/
def storeSet (store : SensorStore) (topic : String) (entry : SensorDataEntry) : SensorStore :=
  match store with
  | [] => [(topic, entry)]
  | (t, e) :: rest =>
    if t = topic then (t, entry) :: rest else (t, e) :: storeSet rest topic entry

/-- `const MAX_HISTORY_POINTS_PER_SENSOR = 300` in socketio.ts. -/
def MAX_HISTORY_POINTS_PER_SENSOR : Nat := 300

/-- `history.push(p)` followed by
`if (history.length > MAX) history.splice(0, history.length - MAX)`. -/
def pushBounded (h : List HistoryPoint) (p : HistoryPoint) : List HistoryPoint :=
  let h2 := h ++ [p]
  if MAX_HISTORY_POINTS_PER_SENSOR < h2.length then
    h2.drop (h2.length - MAX_HISTORY_POINTS_PER_SENSOR)
  else h2

/-- The fields of a JSON object payload that the handler inspects.
`value` is `none` when the field is absent or `null`, `some none` when it
is present but not numeric (`isNaN(Number(v))`), and `some (some v)` when
numeric.  String fields are `none` when absent. -/
structure ParsedObj where
  value : Option (Option JSNum)
  timestamp : Option String
  unit : Option String
  device : Option String
deriving DecidableEq

/-- Outcome of a successful `JSON.parse(message.toString())`: either an
object, or a primitive (for which the handler takes
`parseFloat(parsedPayload)`, recorded here as `primVal`, `none` = NaN). -/
inductive ParseOutcome where
  | objVal (o : ParsedObj)
  | primVal (n : Option JSNum)
deriving DecidableEq

/-- An inbound mqtt message as the handler observes it: its raw text, the
result of `JSON.parse` (`none` = throws, with `parseErr` the exception
message), and the result of `parseFloat(message.toString())`
(`none` = NaN). -/
structure InboundMsg where
  raw : String
  parsed : Option ParseOutcome
  parseErr : String
  rawFloat : Option JSNum
deriving DecidableEq

/-- JavaScript `v || d` for an optional string field: the default is used
when the field is absent or the empty string (falsy). -/
def jsOr (v : Option String) (d : String) : String :=
  match v with
  | some s => if s = "" then d else s
  | none => d

/-- The payload broadcast in a `sensor_data` event. -/
structure Payload where
  value : JSNum
  timestamp : String
  unit : String
  device : Option String
deriving DecidableEq

/-- Events emitted by the relay toward Socket.IO subscribers:
`mqtt_status`, `initial_sensor_history`, `sensor_data`,
`sensor_data_error`. -/
inductive RelayEvent where
  | statusEvt (connected : Bool) (message : String)
  | historyEvt (topic : String) (history : List HistoryPoint) (unit : String)
  | readingEvt (topic : String) (payload : Payload)
  | errorEvt (topic : String) (rawMessage : String) (error : String)
deriving DecidableEq

/-- The numeric value the handler manages to derive from a message:
the payload `value` field if numeric, otherwise `parseFloat` of the raw
message (in both the object and primitive branches), otherwise
`parseFloat` of the raw message in the non-JSON branch. -/
def derivedValue (msg : InboundMsg) : Option JSNum :=
  match msg.parsed with
  | some (.objVal o) =>
    match o.value with
    | some (some v) => some v
    | _ => msg.rawFloat
  | some (.primVal n) =>
    match n with
    | some v => some v
    | none => msg.rawFloat
  | none => msg.rawFloat

/-- The store update both success branches perform: create the entry if
absent, set `currentUnit`, push the new point, trim to capacity. -/
def storeAppend (store : SensorStore) (topic : String) (unit : String)
    (p : HistoryPoint) : SensorStore :=
  let entry := (storeGet store topic).getD { history := [], currentUnit := unit }
  storeSet store topic { history := pushBounded entry.history p, currentUnit := unit }

/-- The body of `mqttClient.on('message', ...)` in socketio.ts: given the
current store, the topic, the message and the current wall-clock time
(`new Date().toISOString()`), produce the new store and the events
broadcast by `io.emit`. -/
def processMessage (store : SensorStore) (topic : String) (msg : InboundMsg)
    (now : String) : SensorStore × List RelayEvent :=
  match msg.parsed with
  | some po =>
    let finalValue : Option JSNum :=
      match po with
      | .objVal o =>
        match o.value with
        | some (some v) => some v
        | _ => msg.rawFloat
      | .primVal n =>
        match n with
        | some v => some v
        | none => msg.rawFloat
    match finalValue with
    | none =>
      (store, [.errorEvt topic msg.raw "Invalid value (not parseable to number)."])
    | some v =>
      let ts :=
        match po with
        | .objVal o => jsOr o.timestamp now
        | .primVal _ => now
      let unit :=
        match po with
        | .objVal o => jsOr o.unit "N/A"
        | .primVal _ => "N/A"
      let device :=
        match po with
        | .objVal o => o.device
        | .primVal _ => none
      (storeAppend store topic unit ⟨v, ts⟩,
       [.readingEvt topic { value := v, timestamp := ts, unit := unit, device := device }])
  | none =>
    match msg.rawFloat with
    | some n =>
      (storeAppend store topic "N/A" ⟨n, now⟩,
       [.readingEvt topic { value := n, timestamp := now, unit := "N/A", device := none }])
    | none =>
      (store, [.errorEvt topic msg.raw ("Invalid format (not JSON or number): " ++ msg.parseErr)])

/-- One delivery of the mqtt `message` event: topic, message, and the
wall-clock time at which it is handled. -/
structure MqttItem where
  topic : String
  msg : InboundMsg
  now : String
deriving DecidableEq

/-- Process a sequence of inbound messages, tracking only the store. -/
def processAll (store : SensorStore) (items : List MqttItem) : SensorStore :=
  items.foldl (fun s it => (processMessage s it.topic it.msg it.now).1) store

/-- The stored history for a topic (empty when the topic is unknown). -/
def snapshot (store : SensorStore) (topic : String) : List HistoryPoint :=
  ((storeGet store topic).map SensorDataEntry.history).getD []

/-- The last `n` elements of a list (all of it when it is shorter). -/
def takeLast (n : Nat) (l : List α) : List α := l.drop (l.length - n)

/-- The history point a message contributes to its topic, if any. -/
def pointOf (msg : InboundMsg) (now : String) : Option HistoryPoint :=
  match msg.parsed with
  | some (.objVal o) =>
    match (match o.value with | some (some v) => some v | _ => msg.rawFloat) with
    | some v => some ⟨v, jsOr o.timestamp now⟩
    | none => none
  | some (.primVal n) =>
    match (match n with | some v => some v | none => msg.rawFloat) with
    | some v => some ⟨v, now⟩
    | none => none
  | none =>
    match msg.rawFloat with
    | some v => some ⟨v, now⟩
    | none => none

/-- The history point an item contributes to topic `T`, if any. -/
def appendedFor (T : String) (it : MqttItem) : Option HistoryPoint :=
  if it.topic = T then pointOf it.msg it.now else none

theorem storeGet_storeSet_self (s : SensorStore) (topic : String) (e : SensorDataEntry) :
    storeGet (storeSet s topic e) topic = some e := by
  induction s with
  | nil => simp [storeSet, storeGet]
  | cons kv rest ih =>
    obtain ⟨t, e0⟩ := kv
    by_cases h : t = topic
    · simp [storeSet, storeGet, h]
    · simp [storeSet, storeGet, h, ih]

theorem storeGet_storeSet_other (s : SensorStore) (topic T : String) (e : SensorDataEntry)
    (h : topic ≠ T) : storeGet (storeSet s topic e) T = storeGet s T := by
  induction s with
  | nil =>
    simp [storeSet, storeGet]
    intro hc
    exact absurd hc h
  | cons kv rest ih =>
    obtain ⟨t, e0⟩ := kv
    by_cases ht : t = topic
    · subst ht
      simp [storeSet, storeGet, h]
    · simp [storeSet, storeGet, ht, ih]

theorem snapshot_storeAppend (s : SensorStore) (t T u : String) (p : HistoryPoint) :
    snapshot (storeAppend s t u p) T =
      if t = T then pushBounded (snapshot s T) p else snapshot s T := by
  by_cases h : t = T
  · subst h
    simp only [snapshot, storeAppend, storeGet_storeSet_self, if_pos rfl]
    cases hg : storeGet s t <;> simp [hg]
  · simp only [snapshot, storeAppend, if_neg h]
    rw [storeGet_storeSet_other _ _ _ _ h]

theorem snapshot_processMessage (s : SensorStore) (t T : String) (msg : InboundMsg)
    (now : String) :
    snapshot ((processMessage s t msg now).1) T =
      match appendedFor T ⟨t, msg, now⟩ with
      | some p => pushBounded (snapshot s T) p
      | none => snapshot s T := by
  obtain ⟨raw, parsed, perr, rawFloat⟩ := msg
  cases parsed with
  | none =>
    cases rawFloat with
    | none => simp [processMessage, appendedFor, pointOf]
    | some n =>
      simp only [processMessage, appendedFor, pointOf, snapshot_storeAppend]
      by_cases h : t = T <;> simp [h]
  | some po =>
    cases po with
    | objVal o =>
      rcases hv : o.value with _ | hh
      · cases hr : rawFloat with
        | none => simp [processMessage, appendedFor, pointOf, hv, hr]
        | some n =>
          simp only [processMessage, appendedFor, pointOf, hv, hr, snapshot_storeAppend]
          by_cases h : t = T <;> simp [h]
      · cases hh with
        | none =>
          cases hr : rawFloat with
          | none => simp [processMessage, appendedFor, pointOf, hv, hr]
          | some n =>
            simp only [processMessage, appendedFor, pointOf, hv, hr, snapshot_storeAppend]
            by_cases h : t = T <;> simp [h]
        | some v =>
          simp only [processMessage, appendedFor, pointOf, hv, snapshot_storeAppend]
          by_cases h : t = T <;> simp [h]
    | primVal n =>
      cases n with
      | none =>
        cases hr : rawFloat with
        | none => simp [processMessage, appendedFor, pointOf, hr]
        | some m =>
          simp only [processMessage, appendedFor, pointOf, hr, snapshot_storeAppend]
          by_cases h : t = T <;> simp [h]
      | some v =>
        simp only [processMessage, appendedFor, pointOf, snapshot_storeAppend]
        by_cases h : t = T <;> simp [h]

theorem snapshot_processAll (s : SensorStore) (items : List MqttItem) (T : String) :
    snapshot (processAll s items) T =
      (items.filterMap (appendedFor T)).foldl pushBounded (snapshot s T) := by
  induction items generalizing s with
  | nil => rfl
  | cons it rest ih =>
    simp only [processAll, List.foldl_cons, List.filterMap_cons]
    have hstep := snapshot_processMessage s it.topic T it.msg it.now
    cases h : appendedFor T it with
    | none =>
      rw [h] at hstep
      show snapshot (processAll ((processMessage s it.topic it.msg it.now).1) rest) T = _
      rw [ih, hstep]
    | some p =>
      rw [h] at hstep
      show snapshot (processAll ((processMessage s it.topic it.msg it.now).1) rest) T = _
      rw [ih, hstep, List.foldl_cons]

theorem pushBounded_eq_takeLast (h : List HistoryPoint) (p : HistoryPoint) :
    pushBounded h p = takeLast MAX_HISTORY_POINTS_PER_SENSOR (h ++ [p]) := by
  simp only [pushBounded, takeLast]
  split
  · rfl
  · next hle =>
    have hz : (h ++ [p]).length - MAX_HISTORY_POINTS_PER_SENSOR = 0 := by omega
    rw [hz, List.drop_zero]

theorem takeLast_length (n : Nat) (l : List α) : (takeLast n l).length = min n l.length := by
  unfold takeLast
  rw [List.length_drop]
  omega

theorem takeLast_drop (n m : Nat) (l : List α) (h : m + n ≤ l.length) :
    takeLast n (l.drop m) = takeLast n l := by
  unfold takeLast
  rw [List.drop_drop, List.length_drop]
  congr 1
  omega

theorem takeLast_append_absorb (n : Nat) (x y : List α) :
    takeLast n (takeLast n x ++ y) = takeLast n (x ++ y) := by
  by_cases hx : x.length ≤ n
  · have hid : takeLast n x = x := by
      unfold takeLast
      have hz : x.length - n = 0 := by omega
      simp [hz]
    rw [hid]
  · have h1 : takeLast n x ++ y = (x ++ y).drop (x.length - n) := by
      unfold takeLast
      rw [List.drop_append_of_le_length (by omega)]
    rw [h1, takeLast_drop _ _ _ (by rw [List.length_append]; omega)]

theorem pushBounded_length_le (h : List HistoryPoint) (p : HistoryPoint) :
    (pushBounded h p).length ≤ MAX_HISTORY_POINTS_PER_SENSOR := by
  rw [pushBounded_eq_takeLast, takeLast_length]
  omega

theorem foldl_pushBounded (l : List HistoryPoint) (h : List HistoryPoint)
    (hh : h.length ≤ MAX_HISTORY_POINTS_PER_SENSOR) :
    l.foldl pushBounded h = takeLast MAX_HISTORY_POINTS_PER_SENSOR (h ++ l) := by
  induction l generalizing h with
  | nil =>
    simp only [List.foldl_nil, List.append_nil, takeLast]
    have hz : h.length - MAX_HISTORY_POINTS_PER_SENSOR = 0 := by omega
    rw [hz, List.drop_zero]
  | cons p l ih =>
    rw [List.foldl_cons, ih (pushBounded h p) (pushBounded_length_le h p)]
    rw [pushBounded_eq_takeLast, takeLast_append_absorb]
    simp

theorem snapshot_nil (T : String) : snapshot [] T = [] := rfl

/-- C1: for every topic `T` and every sequence of inbound broker messages
processed by the mqtt message handler of the Socket.IO relay, the stored
history for `T` never exceeds the fixed capacity of 300 points. -/
theorem history_length_le_capacity (items : List MqttItem) (T : String) :
    (snapshot (processAll [] items) T).length ≤ MAX_HISTORY_POINTS_PER_SENSOR := by
  rw [snapshot_processAll, snapshot_nil,
    foldl_pushBounded _ _ (by simp), takeLast_length]
  omega

/-- C2: after processing any sequence of messages, the history snapshot
for a topic `T` is exactly the last `min(capacity, N)` of the `N` readings
appended for `T`, in arrival order (strict FIFO eviction from the front). -/
theorem history_is_last_min_capacity (items : List MqttItem) (T : String) :
    snapshot (processAll [] items) T
        = takeLast MAX_HISTORY_POINTS_PER_SENSOR (items.filterMap (appendedFor T))
      ∧ (snapshot (processAll [] items) T).length
        = min MAX_HISTORY_POINTS_PER_SENSOR (items.filterMap (appendedFor T)).length := by
  have h := snapshot_processAll [] items T
  rw [snapshot_nil, foldl_pushBounded _ _ (by simp)] at h
  simp only [List.nil_append] at h
  exact ⟨h, by rw [h, takeLast_length]⟩

/-- The `error` string the handler attaches to a `sensor_data_error`
event: one message for the JSON-parsed-but-non-numeric case, one for the
non-JSON non-numeric case. -/
def invalidReason (msg : InboundMsg) : String :=
  match msg.parsed with
  | some _ => "Invalid value (not parseable to number)."
  | none => "Invalid format (not JSON or number): " ++ msg.parseErr

/-- C4: when no numeric value is derivable from an inbound message
(neither a JSON payload with a numeric `value` field nor a string
parseable as a number), the handler emits exactly one
`sensor_data_error` event carrying the topic, the raw message and a
reason, emits no `sensor_data` event, and leaves the store unchanged
(hence every topic's history unchanged). -/
theorem invalid_message_error_only (store : SensorStore) (topic : String)
    (msg : InboundMsg) (now : String) (h : derivedValue msg = none) :
    processMessage store topic msg now =
        (store, [RelayEvent.errorEvt topic msg.raw (invalidReason msg)])
      ∧ ∀ T, snapshot ((processMessage store topic msg now).1) T = snapshot store T := by
  obtain ⟨raw, parsed, perr, rawFloat⟩ := msg
  cases parsed with
  | none =>
    cases rawFloat with
    | none => exact ⟨rfl, fun T => rfl⟩
    | some n => simp [derivedValue] at h
  | some po =>
    cases po with
    | objVal o =>
      rcases hv : o.value with _ | hh
      · simp only [derivedValue, hv] at h
        constructor
        · simp [processMessage, hv, h, invalidReason]
        · intro T
          simp [processMessage, hv, h]
      · cases hh with
        | none =>
          simp only [derivedValue, hv] at h
          constructor
          · simp [processMessage, hv, h, invalidReason]
          · intro T
            simp [processMessage, hv, h]
        | some v => simp [derivedValue, hv] at h
    | primVal n =>
      cases n with
      | none =>
        simp only [derivedValue] at h
        constructor
        · simp [processMessage, h, invalidReason]
        · intro T
          simp [processMessage, h]
      | some v => simp [derivedValue] at h

/-- A concrete garbled message: not JSON, not parseable as a number. -/
def garbledMsg : InboundMsg :=
  { raw := "abc", parsed := none, parseErr := "Unexpected token a in JSON at position 0",
    rawFloat := none }

/-- Witness for C4: the theorem applied to a concrete garbled message. -/
theorem invalid_message_error_only_witness :
    derivedValue garbledMsg = none
      ∧ (processMessage [] "sensorflow/demo/rpi1/temperature" garbledMsg "2024-01-01T00:00:00Z" =
          ([], [RelayEvent.errorEvt "sensorflow/demo/rpi1/temperature" garbledMsg.raw
            (invalidReason garbledMsg)])
        ∧ ∀ T, snapshot ((processMessage [] "sensorflow/demo/rpi1/temperature" garbledMsg
            "2024-01-01T00:00:00Z").1) T = snapshot [] T) :=
  ⟨by decide,
   invalid_message_error_only [] "sensorflow/demo/rpi1/temperature" garbledMsg
     "2024-01-01T00:00:00Z" (by decide)⟩

/-- Lowercasing of a string, character by character
(`topic.toLowerCase()`). -/
def lowerStr (s : String) : String := String.mk (s.data.map Char.toLower)

/-- Whether `pat` occurs at the start of `l`. -/
def startsWithSeq : List Char → List Char → Bool
  | _, [] => true
  | [], _ :: _ => false
  | a :: as, b :: bs => a == b && startsWithSeq as bs

/-- Whether `pat` occurs contiguously anywhere in `l`
(JavaScript `String.prototype.includes`). -/
def containsSeq : List Char → List Char → Bool
  | [], pat => pat.isEmpty
  | a :: t, pat => startsWithSeq (a :: t) pat || containsSeq t pat

/-- `s.includes(pat)` on strings. -/
def strIncludes (s pat : String) : Bool := containsSeq s.data pat.data

/-- The unit the dashboard stores for a sensor on receiving a
`sensor_data` event (page.tsx, `newSocket.on('sensor_data')`):
`payload.unit || existing?.unit || 'N/A'`, then topic-based inference
when the result is `'N/A'`. -/
def clientUnit (topic : String) (payloadUnit : String) (existingUnit : Option String) : String :=
  let unit := jsOr (some payloadUnit) (jsOr existingUnit "N/A")
  if unit = "N/A" then
    if strIncludes (lowerStr topic) "temperature" then "°C"
    else if strIncludes (lowerStr topic) "humidity" then "%"
    else if strIncludes (lowerStr topic) "pressure" then "hPa"
    else "N/A"
  else unit

/-- Whether the inbound message's payload lacks a `unit` field (absent,
or the falsy empty string); primitive and non-JSON payloads never carry
a unit. -/
def lacksUnit (msg : InboundMsg) : Bool :=
  match msg.parsed with
  | some (.objVal o) => o.unit == none || o.unit == some ""
  | _ => true

/-- C9: a message without a unit is relayed with unit `N/A`, and the
dashboard then fills the unit by inference from the topic name:
a topic containing `temperature` yields `°C`, `humidity` yields `%`,
`pressure` yields `hPa`, and any other topic yields `N/A`. -/
theorem unit_inferred_from_topic (store : SensorStore) (topic : String)
    (msg : InboundMsg) (now : String) (v : JSNum) (existing : Option String)
    (hu : lacksUnit msg = true) (hv : derivedValue msg = some v) :
    ∃ pl : Payload,
      (processMessage store topic msg now).2 = [RelayEvent.readingEvt topic pl]
        ∧ pl.unit = "N/A"
        ∧ clientUnit topic pl.unit existing =
            (if strIncludes (lowerStr topic) "temperature" then "°C"
             else if strIncludes (lowerStr topic) "humidity" then "%"
             else if strIncludes (lowerStr topic) "pressure" then "hPa"
             else "N/A") := by
  have hclient : clientUnit topic "N/A" existing =
      (if strIncludes (lowerStr topic) "temperature" then "°C"
       else if strIncludes (lowerStr topic) "humidity" then "%"
       else if strIncludes (lowerStr topic) "pressure" then "hPa"
       else "N/A") := by
    simp [clientUnit, jsOr]
  obtain ⟨raw, parsed, perr, rawFloat⟩ := msg
  cases parsed with
  | none =>
    cases rawFloat with
    | none => simp [derivedValue] at hv
    | some n =>
      refine ⟨⟨n, now, "N/A", none⟩, ?_, rfl, hclient⟩
      simp [processMessage]
  | some po =>
    cases po with
    | objVal o =>
      have hunit : jsOr o.unit "N/A" = "N/A" := by
        simp only [lacksUnit] at hu
        rcases ho : o.unit with _ | s
        · simp [jsOr]
        · rw [ho] at hu
          simp at hu
          simp [jsOr, hu]
      have hcl2 : clientUnit topic (jsOr o.unit "N/A") existing =
          (if strIncludes (lowerStr topic) "temperature" then "°C"
           else if strIncludes (lowerStr topic) "humidity" then "%"
           else if strIncludes (lowerStr topic) "pressure" then "hPa"
           else "N/A") := by
        rw [hunit]
        exact hclient
      rcases hval : o.value with _ | hh
      · simp only [derivedValue, hval] at hv
        refine ⟨⟨v, jsOr o.timestamp now, jsOr o.unit "N/A", o.device⟩, ?_, hunit, hcl2⟩
        simp [processMessage, hval, hv]
      · cases hh with
        | none =>
          simp only [derivedValue, hval] at hv
          refine ⟨⟨v, jsOr o.timestamp now, jsOr o.unit "N/A", o.device⟩, ?_, hunit, hcl2⟩
          simp [processMessage, hval, hv]
        | some w =>
          simp only [derivedValue, hval, Option.some.injEq] at hv
          refine ⟨⟨v, jsOr o.timestamp now, jsOr o.unit "N/A", o.device⟩, ?_, hunit, hcl2⟩
          simp [processMessage, hval, hv]
    | primVal n =>
      cases n with
      | none =>
        simp only [derivedValue] at hv
        refine ⟨⟨v, now, "N/A", none⟩, ?_, rfl, hclient⟩
        simp [processMessage, hv]
      | some w =>
        simp only [derivedValue, Option.some.injEq] at hv
        refine ⟨⟨v, now, "N/A", none⟩, ?_, rfl, hclient⟩
        simp [processMessage, hv]

/-- The parsed object of a concrete unit-less temperature message. -/
def unitlessObj : ParsedObj :=
  { value := some (some 25), timestamp := some "2024-02-20T10:00:00Z",
    unit := none, device := none }

/-- A concrete unit-less temperature message. -/
def unitlessMsg : InboundMsg :=
  { raw := "25", parsed := some (.objVal unitlessObj), parseErr := "", rawFloat := some 25 }

/-- Witness for C9: a unit-less reading on a temperature topic ends up
displayed with unit `°C`. -/
theorem unit_inferred_from_topic_witness :
    (lacksUnit unitlessMsg = true ∧ derivedValue unitlessMsg = some 25)
      ∧ ∃ pl : Payload,
          (processMessage [] "sensorflow/demo/rpi1/temperature" unitlessMsg
            "2024-02-20T10:00:01Z").2 =
              [RelayEvent.readingEvt "sensorflow/demo/rpi1/temperature" pl]
            ∧ pl.unit = "N/A"
            ∧ clientUnit "sensorflow/demo/rpi1/temperature" pl.unit none =
                (if strIncludes (lowerStr "sensorflow/demo/rpi1/temperature") "temperature"
                 then "°C"
                 else if strIncludes (lowerStr "sensorflow/demo/rpi1/temperature") "humidity"
                 then "%"
                 else if strIncludes (lowerStr "sensorflow/demo/rpi1/temperature") "pressure"
                 then "hPa"
                 else "N/A") :=
  ⟨⟨by decide, by decide⟩,
   unit_inferred_from_topic [] "sensorflow/demo/rpi1/temperature" unitlessMsg
     "2024-02-20T10:00:01Z" 25 none (by decide) (by decide)⟩

/-- The default broker URL in socketio.ts. -/
def MQTT_BROKER_URL : String := "mqtt://broker.hivemq.com"

/-- State of the mqtt client as the `connection` handler reads it
(`mqttClient.connected` / `mqttClient.reconnecting` / otherwise). -/
inductive MqttState where
  | connected
  | reconnecting
  | notConnected
deriving DecidableEq

/-- The `mqtt_status` event a freshly attached socket receives. -/
def statusEventOf (st : MqttState) : RelayEvent :=
  match st with
  | .connected => .statusEvt true ("Connected to MQTT broker (" ++ MQTT_BROKER_URL ++ ")")
  | .reconnecting => .statusEvt false "MQTT reconnecting..."
  | .notConnected => .statusEvt false "MQTT not connected"

/-- One Socket.IO client, identified by its socket id, with the ordered
list of events it has been sent. -/
structure Subscriber where
  sid : Nat
  log : List RelayEvent
deriving DecidableEq

/-- The relay's state: the per-topic store, the mqtt client state and the
connected subscribers. -/
structure HubState where
  store : SensorStore
  mqtt : MqttState
  subs : List Subscriber
deriving DecidableEq

/-- The `initial_sensor_history` events the `connection` handler sends:
one per store entry with non-empty history, in store (insertion) order. -/
def replayEvents (store : SensorStore) : List RelayEvent :=
  store.filterMap fun te =>
    if 0 < te.2.history.length then some (.historyEvt te.1 te.2.history te.2.currentUnit)
    else none

/-- Everything a socket is sent synchronously inside the `connection`
handler: the `mqtt_status` snapshot, then all history replays. -/
def attachLog (st : HubState) : List RelayEvent :=
  statusEventOf st.mqtt :: replayEvents st.store

/-- An event-loop turn of the relay: either a socket connects, or the
mqtt client delivers a message (each handler runs to completion before
the next turn, as in the Node.js event loop). -/
inductive HubStep where
  | attach (sid : Nat)
  | message (topic : String) (msg : InboundMsg) (now : String)
deriving DecidableEq

/-- Execute one event-loop turn. -/
def hubStep (st : HubState) (step : HubStep) : HubState :=
  match step with
  | .attach sid =>
    { st with subs := st.subs ++ [⟨sid, attachLog st⟩] }
  | .message topic msg now =>
    let res := processMessage st.store topic msg now
    { st with store := res.1,
              subs := st.subs.map fun sub => { sub with log := sub.log ++ res.2 } }

/-- Execute a sequence of event-loop turns. -/
def hubRun (st : HubState) (steps : List HubStep) : HubState :=
  steps.foldl hubStep st

/-- The event log of the subscriber with the given socket id. -/
def subLog (st : HubState) (sid : Nat) : Option (List RelayEvent) :=
  (st.subs.find? fun sub => sub.sid == sid).map Subscriber.log

theorem subLog_hubStep_mono (st : HubState) (step : HubStep) (sid : Nat)
    (l : List RelayEvent) (h : subLog st sid = some l) :
    ∃ extra, subLog (hubStep st step) sid = some (l ++ extra) := by
  cases step with
  | attach sid2 =>
    refine ⟨[], ?_⟩
    simp only [subLog, hubStep, List.find?_append]
    simp only [subLog] at h
    cases hf : st.subs.find? fun sub => sub.sid == sid with
    | none => rw [hf] at h; simp at h
    | some sub =>
      rw [hf] at h
      injection h with hlog
      simp [hf, Option.or, hlog]
  | message topic msg now =>
    simp only [subLog, hubStep, List.find?_map]
    simp only [subLog] at h
    cases hf : st.subs.find? fun sub => sub.sid == sid with
    | none => rw [hf] at h; simp at h
    | some sub =>
      rw [hf] at h
      injection h with hlog
      refine ⟨(processMessage st.store topic msg now).2, ?_⟩
      have hcomp : ((fun sub : Subscriber => sub.sid == sid) ∘
          fun sub : Subscriber =>
            { sub with log := sub.log ++ (processMessage st.store topic msg now).2 }) =
          fun sub : Subscriber => sub.sid == sid := rfl
      rw [hcomp, hf]
      simp [hlog]

theorem subLog_hubRun_mono (steps : List HubStep) (st : HubState) (sid : Nat)
    (l : List RelayEvent) (h : subLog st sid = some l) :
    ∃ extra, subLog (hubRun st steps) sid = some (l ++ extra) := by
  induction steps generalizing st l with
  | nil => exact ⟨[], by simpa [hubRun]⟩
  | cons step rest ih =>
    obtain ⟨e1, h1⟩ := subLog_hubStep_mono st step sid l h
    obtain ⟨e2, h2⟩ := ih (hubStep st step) (l ++ e1) h1
    exact ⟨e1 ++ e2, by rw [hubRun, List.foldl_cons, ← hubRun, h2, List.append_assoc]⟩

theorem subLog_after_attach (st : HubState) (sid : Nat)
    (hfresh : ∀ s ∈ st.subs, s.sid ≠ sid) :
    subLog (hubStep st (.attach sid)) sid = some (attachLog st) := by
  simp only [subLog, hubStep, List.find?_append]
  have hnone : (st.subs.find? fun sub => sub.sid == sid) = none := by
    rw [List.find?_eq_none]
    intro s hs
    simpa using hfresh s hs
  rw [hnone, List.find?_cons_of_pos _ (by simp)]
  rfl

theorem storeGet_mem (s : SensorStore) (T : String) (e : SensorDataEntry)
    (h : storeGet s T = some e) : (T, e) ∈ s := by
  induction s with
  | nil => simp [storeGet] at h
  | cons kv rest ih =>
    obtain ⟨t, e0⟩ := kv
    by_cases ht : t = T
    · subst ht
      rw [storeGet, if_pos rfl] at h
      cases h
      exact List.mem_cons_self _ _
    · simp only [storeGet, if_neg ht] at h
      exact List.mem_cons_of_mem _ (ih h)

theorem historyEvt_mem_replayEvents (store : SensorStore) (T : String)
    (hne : snapshot store T ≠ []) :
    ∃ u, RelayEvent.historyEvt T (snapshot store T) u ∈ replayEvents store := by
  unfold snapshot at hne ⊢
  cases hg : storeGet store T with
  | none => rw [hg] at hne; simp at hne
  | some e =>
    rw [hg] at hne
    simp only [Option.map_some', Option.getD_some] at hne ⊢
    refine ⟨e.currentUnit, ?_⟩
    unfold replayEvents
    rw [List.mem_filterMap]
    refine ⟨(T, e), storeGet_mem store T e hg, ?_⟩
    have hlen : 0 < e.history.length := by
      cases hh : e.history with
      | nil => exact absurd hh hne
      | cons a t => simp [hh]
    simp [hlen]

theorem replayEvents_only_history (store : SensorStore) (ev : RelayEvent)
    (h : ev ∈ replayEvents store) :
    ∃ t hist u, ev = RelayEvent.historyEvt t hist u := by
  unfold replayEvents at h
  rw [List.mem_filterMap] at h
  obtain ⟨te, _, hev⟩ := h
  by_cases hc : 0 < te.2.history.length
  · rw [if_pos hc] at hev
    cases hev
    exact ⟨te.1, te.2.history, te.2.currentUnit, rfl⟩
  · rw [if_neg hc] at hev
    cases hev

/-- C3: a subscriber that attaches mid-stream receives, synchronously at
attach time, a status snapshot and the history replay of every topic
with non-empty history; its log is this attach block followed only by
events processed after the attachment, the replay for `T` is in the
attach block, and the attach block contains no live `sensor_data` event,
so the replay for `T` strictly precedes every live reading for `T`. -/
theorem replay_before_live (st0 : HubState) (init post : List HubStep) (sid : Nat)
    (T : String)
    (hfresh : ∀ s ∈ (hubRun st0 init).subs, s.sid ≠ sid)
    (hne : snapshot (hubRun st0 init).store T ≠ []) :
    ∃ live : List RelayEvent,
      subLog (hubRun st0 (init ++ HubStep.attach sid :: post)) sid =
          some (attachLog (hubRun st0 init) ++ live)
        ∧ (∃ u, RelayEvent.historyEvt T (snapshot (hubRun st0 init).store T) u
            ∈ attachLog (hubRun st0 init))
        ∧ ∀ ev ∈ attachLog (hubRun st0 init), ∀ p, ev ≠ RelayEvent.readingEvt T p := by
  have hsplit : hubRun st0 (init ++ HubStep.attach sid :: post) =
      hubRun (hubStep (hubRun st0 init) (.attach sid)) post := by
    simp [hubRun, List.foldl_append, List.foldl_cons]
  have hat := subLog_after_attach (hubRun st0 init) sid hfresh
  obtain ⟨live, hlive⟩ :=
    subLog_hubRun_mono post (hubStep (hubRun st0 init) (.attach sid)) sid _ hat
  refine ⟨live, by rw [hsplit]; exact hlive, ?_, ?_⟩
  · obtain ⟨u, hu⟩ := historyEvt_mem_replayEvents (hubRun st0 init).store T hne
    exact ⟨u, List.mem_cons_of_mem _ hu⟩
  · intro ev hev p
    rcases List.mem_cons.mp hev with hev | hev
    · subst hev
      cases h : (hubRun st0 init).mqtt <;> simp [statusEventOf, h]
    · obtain ⟨t, hist, u, heq⟩ := replayEvents_only_history _ _ hev
      subst heq
      simp

/-- A concrete run for the C3 witness: one reading arrives, a subscriber
attaches, another reading arrives. -/
def witnessHub0 : HubState := { store := [], mqtt := .connected, subs := [] }

/-- Witness for C3: the theorem applied to the concrete run. -/
theorem replay_before_live_witness :
    ((∀ s ∈ (hubRun witnessHub0 [HubStep.message "sensorflow/demo/rpi1/temperature" unitlessMsg
        "2024-02-20T10:00:01Z"]).subs, s.sid ≠ 7)
      ∧ snapshot (hubRun witnessHub0 [HubStep.message "sensorflow/demo/rpi1/temperature"
          unitlessMsg "2024-02-20T10:00:01Z"]).store "sensorflow/demo/rpi1/temperature" ≠ [])
    ∧ ∃ live : List RelayEvent,
        subLog (hubRun witnessHub0 ([HubStep.message "sensorflow/demo/rpi1/temperature"
            unitlessMsg "2024-02-20T10:00:01Z"] ++ HubStep.attach 7 ::
            [HubStep.message "sensorflow/demo/rpi1/temperature" unitlessMsg
              "2024-02-20T10:00:02Z"])) 7 =
            some (attachLog (hubRun witnessHub0 [HubStep.message
              "sensorflow/demo/rpi1/temperature" unitlessMsg "2024-02-20T10:00:01Z"]) ++ live)
          ∧ (∃ u, RelayEvent.historyEvt "sensorflow/demo/rpi1/temperature"
              (snapshot (hubRun witnessHub0 [HubStep.message "sensorflow/demo/rpi1/temperature"
                unitlessMsg "2024-02-20T10:00:01Z"]).store "sensorflow/demo/rpi1/temperature") u
              ∈ attachLog (hubRun witnessHub0 [HubStep.message
                "sensorflow/demo/rpi1/temperature" unitlessMsg "2024-02-20T10:00:01Z"]))
          ∧ ∀ ev ∈ attachLog (hubRun witnessHub0 [HubStep.message
              "sensorflow/demo/rpi1/temperature" unitlessMsg "2024-02-20T10:00:01Z"]),
              ∀ p, ev ≠ RelayEvent.readingEvt "sensorflow/demo/rpi1/temperature" p :=
  ⟨⟨by decide, by decide⟩,
   replay_before_live witnessHub0
     [HubStep.message "sensorflow/demo/rpi1/temperature" unitlessMsg "2024-02-20T10:00:01Z"]
     [HubStep.message "sensorflow/demo/rpi1/temperature" unitlessMsg "2024-02-20T10:00:02Z"]
     7 "sensorflow/demo/rpi1/temperature" (by decide) (by decide)⟩

/-- An opaque handle standing for one `mqtt.MqttClient` instance created
by `mqtt.connect` in the proxy route. -/
abbrev ClientId := Nat

/-- `const clients: { [device: string]: mqtt.MqttClient } = {}` in
custom-mqtt-proxy/route.ts, as an association list (JS object keys are
unique; the reachable states keep the key list duplicate-free). -/
abbrev Clients := List (String × ClientId)

/-- `clients[name]` lookup. -/
def clientsGet (cs : Clients) (name : String) : Option ClientId :=
  match cs with
  | [] => none
  | (n, c) :: rest => if n = name then some c else clientsGet rest name

/-- `delete clients[name]`: drop the binding for `name`. -/
def clientsRemove (cs : Clients) (name : String) : Clients :=
  match cs with
  | [] => []
  | (n, c) :: rest => if n = name then rest else (n, c) :: clientsRemove rest name

/-- The JSON body of a proxy request (`{name, broker}`); `DELETE` sends
only `name`. -/
structure RegisterBody where
  name : Option String
  broker : Option String
deriving DecidableEq

/-- The JSON response of the proxy route: `{success: true}`, or an
`{error: ...}` with an HTTP status. -/
inductive ApiResponse where
  | success
  | errorResp (status : Nat) (message : String)
deriving DecidableEq

/-- JavaScript `!v` for an optional string: true when the field is absent
or the empty string. -/
def isFalsy (v : Option String) : Bool :=
  match v with
  | none => true
  | some s => s == ""

/-- `POST /api/custom-mqtt-proxy` (register a device broker): reject a
falsy name or broker, reject a name that already has a client, otherwise
connect a new client and store it under the name. -/
def proxyPost (cs : Clients) (fresh : ClientId) (body : RegisterBody) :
    Clients × ApiResponse :=
  if isFalsy body.name || isFalsy body.broker then
    (cs, .errorResp 400 "Missing device name or broker")
  else
    let name := body.name.getD ""
    match clientsGet cs name with
    | some _ => (cs, .errorResp 400 "Client already exists for this device")
    | none => (cs ++ [(name, fresh)], .success)

/-- `DELETE /api/custom-mqtt-proxy` (unregister): reject a falsy name;
if a client exists for the name, force-disconnect and delete it; in every
non-falsy case respond `{success: true}`. -/
def proxyDelete (cs : Clients) (body : RegisterBody) : Clients × ApiResponse :=
  if isFalsy body.name then
    (cs, .errorResp 400 "Missing device name")
  else
    let name := body.name.getD ""
    match clientsGet cs name with
    | some _ => (clientsRemove cs name, .success)
    | none => (cs, .success)

/-- One request hitting the proxy route. -/
inductive RegistryOp where
  | post (fresh : ClientId) (body : RegisterBody)
  | del (body : RegisterBody)
deriving DecidableEq

/-- The clients map after one request. -/
def applyOp (cs : Clients) (op : RegistryOp) : Clients :=
  match op with
  | .post fresh body => (proxyPost cs fresh body).1
  | .del body => (proxyDelete cs body).1

/-- The clients map after a sequence of requests. -/
def runOps (cs : Clients) (ops : List RegistryOp) : Clients :=
  ops.foldl applyOp cs

/-- The registry holds at most one client per device name. -/
def keysNodup (cs : Clients) : Prop := (cs.map Prod.fst).Nodup

theorem clientsGet_eq_none_not_mem (cs : Clients) (name : String)
    (h : clientsGet cs name = none) : name ∉ cs.map Prod.fst := by
  induction cs with
  | nil => simp
  | cons kv rest ih =>
    obtain ⟨n, c⟩ := kv
    by_cases hn : n = name
    · rw [clientsGet, if_pos hn] at h
      cases h
    · rw [clientsGet, if_neg hn] at h
      simp only [List.map_cons, List.mem_cons]
      rintro (rfl | hmem)
      · exact hn rfl
      · exact ih h hmem

theorem mem_clientsRemove_keys (cs : Clients) (name x : String)
    (h : x ∈ (clientsRemove cs name).map Prod.fst) : x ∈ cs.map Prod.fst := by
  induction cs with
  | nil => exact h
  | cons kv rest ih =>
    obtain ⟨n, c⟩ := kv
    by_cases hn : n = name
    · rw [clientsRemove, if_pos hn] at h
      exact List.mem_cons_of_mem _ h
    · rw [clientsRemove, if_neg hn] at h
      simp only [List.map_cons, List.mem_cons] at h ⊢
      rcases h with h | h
      · exact Or.inl h
      · exact Or.inr (ih h)

theorem keysNodup_clientsRemove (cs : Clients) (name : String) (h : keysNodup cs) :
    keysNodup (clientsRemove cs name) := by
  induction cs with
  | nil => exact h
  | cons kv rest ih =>
    obtain ⟨n, c⟩ := kv
    simp only [keysNodup, List.map_cons, List.nodup_cons] at h
    by_cases hn : n = name
    · rw [keysNodup, clientsRemove, if_pos hn]
      exact h.2
    · rw [keysNodup, clientsRemove, if_neg hn]
      simp only [List.map_cons, List.nodup_cons]
      exact ⟨fun hmem => h.1 (mem_clientsRemove_keys rest name n hmem), ih h.2⟩

theorem keysNodup_applyOp (cs : Clients) (op : RegistryOp) (h : keysNodup cs) :
    keysNodup (applyOp cs op) := by
  cases op with
  | post fresh body =>
    simp only [applyOp, proxyPost]
    split
    · exact h
    · cases hg : clientsGet cs (body.name.getD "") with
      | some c => exact h
      | none =>
        simp only [keysNodup, List.map_append]
        rw [List.nodup_append]
        refine ⟨h, List.nodup_singleton _, ?_⟩
        intro x hx hx2
        simp only [List.map_cons, List.map_nil, List.mem_singleton] at hx2
        subst hx2
        exact clientsGet_eq_none_not_mem cs _ hg hx
  | del body =>
    simp only [applyOp, proxyDelete]
    split
    · exact h
    · cases hg : clientsGet cs (body.name.getD "") with
      | some c => exact keysNodup_clientsRemove cs _ h
      | none => exact h

theorem keysNodup_runOps (ops : List RegistryOp) : keysNodup (runOps [] ops) := by
  have hgen : ∀ cs, keysNodup cs → keysNodup (runOps cs ops) := by
    induction ops with
    | nil => intro cs h; exact h
    | cons op rest ih =>
      intro cs h
      rw [runOps, List.foldl_cons]
      exact ih (applyOp cs op) (keysNodup_applyOp cs op h)
  exact hgen [] (by simp [keysNodup])

/-- C7: a second registration of an already-registered device name
responds with the already-exists error and leaves the clients map
unchanged (no second broker connection is created); moreover every
clients map reachable from an empty registry holds at most one client
per name. -/
theorem register_duplicate_rejected (cs : Clients) (fresh c : ClientId)
    (name broker : String) (hn : name ≠ "") (hb : broker ≠ "")
    (hreg : clientsGet cs name = some c) :
    proxyPost cs fresh { name := some name, broker := some broker } =
        (cs, ApiResponse.errorResp 400 "Client already exists for this device")
      ∧ ∀ ops : List RegistryOp, keysNodup (runOps [] ops) := by
  constructor
  · simp [proxyPost, isFalsy, hn, hb, hreg]
  · exact keysNodup_runOps

/-- Witness for C7: registering `rpi9` twice. -/
theorem register_duplicate_rejected_witness :
    (("rpi9" : String) ≠ "" ∧ ("mqtt://10.0.0.2:1883" : String) ≠ ""
      ∧ clientsGet [("rpi9", 0)] "rpi9" = some 0)
    ∧ proxyPost [("rpi9", 0)] 1 { name := some "rpi9", broker := some "mqtt://10.0.0.2:1883" } =
        ([("rpi9", 0)], ApiResponse.errorResp 400 "Client already exists for this device")
    ∧ ∀ ops : List RegistryOp, keysNodup (runOps [] ops) :=
  ⟨⟨by decide, by decide, by decide⟩,
   register_duplicate_rejected [("rpi9", 0)] 1 0 "rpi9" "mqtt://10.0.0.2:1883"
     (by decide) (by decide) (by decide)⟩

/-- C8 counterexample: unregistering a name that was never registered
responds `{success: true}` with the clients map unchanged; no `NotFound`
error is produced, contradicting the claim that such a request fails. -/
theorem unregister_missing_reports_success :
    proxyDelete [] { name := some "ghost", broker := none } = ([], ApiResponse.success) := by
  rfl

/-- C8 (amended): an unregistration request for a name that is not
present in the registry succeeds (idempotent deletion) and changes
nothing; only a request with a missing (falsy) name fails, with a 400
missing-name error rather than a NotFound error. -/
theorem unregister_missing_succeeds (cs : Clients) (name : String) (hn : name ≠ "")
    (habs : clientsGet cs name = none) :
    proxyDelete cs { name := some name, broker := none } = (cs, ApiResponse.success)
      ∧ ∀ cs2 : Clients,
          proxyDelete cs2 { name := none, broker := none } =
            (cs2, ApiResponse.errorResp 400 "Missing device name") := by
  constructor
  · simp [proxyDelete, isFalsy, hn, habs]
  · intro cs2
    rfl

/-- Witness for C8 (amended): deleting `ghost` from a registry holding
only `rpi9`. -/
theorem unregister_missing_succeeds_witness :
    (("ghost" : String) ≠ "" ∧ clientsGet [("rpi9", 0)] "ghost" = none)
    ∧ proxyDelete [("rpi9", 0)] { name := some "ghost", broker := none } =
        ([("rpi9", 0)], ApiResponse.success)
    ∧ ∀ cs2 : Clients,
        proxyDelete cs2 { name := none, broker := none } =
          (cs2, ApiResponse.errorResp 400 "Missing device name") :=
  ⟨⟨by decide, by decide⟩,
   unregister_missing_succeeds [("rpi9", 0)] "ghost" (by decide) (by decide)⟩

/-- The whole server's state relevant to unregistration: the relay's
history store (socketio.ts) and the proxy route's clients map.  The
DELETE handler only touches the clients map; `sensorDataStore` lives in
a module the route never imports, so the store passes through
unchanged. -/
structure ServerState where
  store : SensorStore
  clients : Clients
deriving DecidableEq

/-- `DELETE /api/custom-mqtt-proxy` at whole-server level. -/
def sysDelete (st : ServerState) (body : RegisterBody) : ServerState × ApiResponse :=
  let r := proxyDelete st.clients body
  ({ store := st.store, clients := r.1 }, r.2)

/-- A store holding one reading for a topic of device `rpi9`. -/
def storeRpi9 : SensorStore :=
  processAll [] [⟨"sensorflow/demo/rpi9/temperature", unitlessMsg, "2024-02-20T10:00:01Z"⟩]

/-- C6 counterexample: with one reading stored for
`sensorflow/demo/rpi9/temperature` and `rpi9` registered, unregistering
`rpi9` succeeds, removes the client, yet the subsequent snapshot of the
topic is unchanged and non-empty: no topic is removed from the history
store. -/
theorem unregister_keeps_history :
    (sysDelete ⟨storeRpi9, [("rpi9", 0)]⟩ { name := some "rpi9", broker := none }).2 =
        ApiResponse.success
      ∧ clientsGet (sysDelete ⟨storeRpi9, [("rpi9", 0)]⟩
          { name := some "rpi9", broker := none }).1.clients "rpi9" = none
      ∧ snapshot (sysDelete ⟨storeRpi9, [("rpi9", 0)]⟩
          { name := some "rpi9", broker := none }).1.store
          "sensorflow/demo/rpi9/temperature" ≠ [] := by
  refine ⟨rfl, rfl, ?_⟩
  decide

/-- C6 (amended): a successful unregistration of a registered device
name removes its broker client but leaves the history store untouched:
every topic's snapshot (in particular every topic under the device's
namespace) is exactly what it was before the request. -/
theorem unregister_leaves_history (st : ServerState) (name : String) (c : ClientId)
    (hn : name ≠ "") (hreg : clientsGet st.clients name = some c) :
    (sysDelete st { name := some name, broker := none }).2 = ApiResponse.success
      ∧ (sysDelete st { name := some name, broker := none }).1.clients =
          clientsRemove st.clients name
      ∧ (sysDelete st { name := some name, broker := none }).1.store = st.store
      ∧ ∀ T, snapshot (sysDelete st { name := some name, broker := none }).1.store T =
          snapshot st.store T := by
  have hd : proxyDelete st.clients { name := some name, broker := none } =
      (clientsRemove st.clients name, ApiResponse.success) := by
    simp [proxyDelete, isFalsy, hn, hreg]
  refine ⟨?_, ?_, rfl, fun T => rfl⟩
  · simp [sysDelete, hd]
  · simp [sysDelete, hd]

/-- Witness for C6 (amended): unregistering `rpi9` with one stored
reading. -/
theorem unregister_leaves_history_witness :
    (("rpi9" : String) ≠ "" ∧ clientsGet [("rpi9", 0)] "rpi9" = some 0)
    ∧ (sysDelete ⟨storeRpi9, [("rpi9", 0)]⟩ { name := some "rpi9", broker := none }).2 =
        ApiResponse.success
    ∧ (sysDelete ⟨storeRpi9, [("rpi9", 0)]⟩ { name := some "rpi9", broker := none }).1.clients =
        clientsRemove [("rpi9", 0)] "rpi9"
    ∧ (sysDelete ⟨storeRpi9, [("rpi9", 0)]⟩ { name := some "rpi9", broker := none }).1.store =
        storeRpi9
    ∧ ∀ T, snapshot (sysDelete ⟨storeRpi9, [("rpi9", 0)]⟩
        { name := some "rpi9", broker := none }).1.store T = snapshot storeRpi9 T :=
  ⟨⟨by decide, by decide⟩,
   unregister_leaves_history ⟨storeRpi9, [("rpi9", 0)]⟩ "rpi9" 0 (by decide) (by decide)⟩
set_option maxRecDepth 8192

/-- A byte: a natural number, meaningful when below 256. -/
abbrev Byte := Nat

/-- Multiplication by x in GF(2^8) modulo the AES polynomial x^8+x^4+x^3+x+1. -/
def xtime (b : Byte) : Byte :=
  if b < 128 then 2 * b else (2 * b - 256) ^^^ 0x1b

theorem two_mul_xor (a b : Nat) : 2 * (a ^^^ b) = 2 * a ^^^ 2 * b := by
  have h : ∀ x : Nat, 2 * x = x <<< 1 := by
    intro x
    rw [Nat.shiftLeft_eq, pow_one, Nat.mul_comm]
  rw [h, h, h]
  apply Nat.eq_of_testBit_eq
  intro i
  by_cases h1 : 1 ≤ i <;> simp [Nat.testBit_shiftLeft, Nat.testBit_xor, h1]

theorem add256_xor : ∀ r < 256, 256 + r = 256 ^^^ r := by decide

theorem sub256_eq_xor (x : Nat) (h1 : 256 ≤ x) (h2 : x < 512) : x - 256 = x ^^^ 256 := by
  have h3 : x - 256 < 256 := by omega
  have hx : x = 256 ^^^ (x - 256) := by rw [← add256_xor _ h3]; omega
  conv_rhs => rw [hx]
  rw [Nat.xor_comm 256 (x - 256), Nat.xor_assoc, Nat.xor_self, Nat.xor_zero]

theorem byte_high_bit : ∀ x < 256, (Nat.testBit x 7 = true ↔ 128 ≤ x) := by decide

theorem testBit7_false (a : Nat) (ha : a < 256) (h : a < 128) : Nat.testBit a 7 = false := by
  cases hb : Nat.testBit a 7
  · rfl
  · exact absurd ((byte_high_bit a ha).mp hb) (by omega)

/-- The AES xtime map is additive over GF(2^8) (xor). -/
theorem xtime_xor (a b : Nat) (ha : a < 256) (hb : b < 256) :
    xtime (a ^^^ b) = xtime a ^^^ xtime b := by
  have hab : a ^^^ b < 256 := Nat.xor_lt_two_pow (n := 8) ha hb
  by_cases h1 : a < 128 <;> by_cases h2 : b < 128
  · have hlt : a ^^^ b < 128 := Nat.xor_lt_two_pow (n := 7) h1 h2
    rw [xtime, xtime, xtime, if_pos hlt, if_pos h1, if_pos h2]
    exact two_mul_xor a b
  · have ht : 128 ≤ a ^^^ b := by
      have hta : Nat.testBit a 7 = false := testBit7_false a ha h1
      have htb : Nat.testBit b 7 = true := (byte_high_bit b hb).mpr (by omega)
      have hx : Nat.testBit (a ^^^ b) 7 = true := by
        rw [Nat.testBit_xor, hta, htb]
        rfl
      exact (byte_high_bit _ hab).mp hx
    rw [xtime, xtime, xtime, if_neg (show ¬(a ^^^ b < 128) by omega), if_pos h1,
      if_neg (show ¬(b < 128) from h2)]
    rw [sub256_eq_xor (2 * (a ^^^ b)) (by omega) (by omega),
      sub256_eq_xor (2 * b) (by omega) (by omega), two_mul_xor]
    ac_rfl
  · have ht : 128 ≤ a ^^^ b := by
      have htb : Nat.testBit b 7 = false := testBit7_false b hb h2
      have hta : Nat.testBit a 7 = true := (byte_high_bit a ha).mpr (by omega)
      have hx : Nat.testBit (a ^^^ b) 7 = true := by
        rw [Nat.testBit_xor, hta, htb]
        rfl
      exact (byte_high_bit _ hab).mp hx
    rw [xtime, xtime, xtime, if_neg (show ¬(a ^^^ b < 128) by omega),
      if_neg (show ¬(a < 128) from h1), if_pos h2]
    rw [sub256_eq_xor (2 * (a ^^^ b)) (by omega) (by omega),
      sub256_eq_xor (2 * a) (by omega) (by omega), two_mul_xor]
    rw [Nat.xor_assoc (2 * a ^^^ 256) 27 (2 * b), Nat.xor_comm 27 (2 * b),
      ← Nat.xor_assoc (2 * a ^^^ 256) (2 * b) 27, Nat.xor_assoc (2 * a) 256 (2 * b),
      Nat.xor_comm 256 (2 * b), ← Nat.xor_assoc (2 * a) (2 * b) 256]
  · have ht : a ^^^ b < 128 := by
      have hta : Nat.testBit a 7 = true := (byte_high_bit a ha).mpr (by omega)
      have htb : Nat.testBit b 7 = true := (byte_high_bit b hb).mpr (by omega)
      have hf : Nat.testBit (a ^^^ b) 7 = false := by
        rw [Nat.testBit_xor, hta, htb]
        rfl
      by_contra hge
      have hx := (byte_high_bit _ hab).mpr (by omega)
      rw [hf] at hx
      cases hx
    rw [xtime, xtime, xtime, if_pos ht, if_neg (show ¬(a < 128) from h1),
      if_neg (show ¬(b < 128) from h2)]
    rw [sub256_eq_xor (2 * a) (by omega) (by omega),
      sub256_eq_xor (2 * b) (by omega) (by omega), two_mul_xor]
    have hre : (2 * a ^^^ 256) ^^^ 27 ^^^ ((2 * b ^^^ 256) ^^^ 27)
        = (2 * a ^^^ 2 * b) ^^^ ((256 ^^^ 256) ^^^ (27 ^^^ 27)) := by ac_rfl
    rw [hre]
    simp

theorem xor_lt_256 (a b : Nat) (ha : a < 256) (hb : b < 256) : a ^^^ b < 256 :=
  Nat.xor_lt_two_pow (n := 8) ha hb

/-- Multiplication by the GF(2^8) constants used by MixColumns and its
inverse, expressed through xtime. -/
def mul2 (b : Byte) : Byte := xtime b

def mul3 (b : Byte) : Byte := xtime b ^^^ b

def mul9 (b : Byte) : Byte := xtime (xtime (xtime b)) ^^^ b

def mul11 (b : Byte) : Byte := xtime (xtime (xtime b)) ^^^ (xtime b ^^^ b)

def mul13 (b : Byte) : Byte := xtime (xtime (xtime b)) ^^^ (xtime (xtime b) ^^^ b)

def mul14 (b : Byte) : Byte := xtime (xtime (xtime b)) ^^^ (xtime (xtime b) ^^^ xtime b)

theorem xtime_lt : ∀ b < 256, xtime b < 256 := by decide

theorem mul2_lt : ∀ b < 256, mul2 b < 256 := by decide

theorem mul3_lt : ∀ b < 256, mul3 b < 256 := by decide

theorem xor_pair_swap (p q r s : Nat) : (p ^^^ q) ^^^ (r ^^^ s) = (p ^^^ r) ^^^ (q ^^^ s) := by
  rw [Nat.xor_assoc p q (r ^^^ s), ← Nat.xor_assoc q r s, Nat.xor_comm q r,
    Nat.xor_assoc r q s, ← Nat.xor_assoc p r (q ^^^ s)]

theorem xt2_xor (a b : Byte) (ha : a < 256) (hb : b < 256) :
    xtime (xtime (a ^^^ b)) = xtime (xtime a) ^^^ xtime (xtime b) := by
  rw [xtime_xor a b ha hb, xtime_xor _ _ (xtime_lt a ha) (xtime_lt b hb)]

theorem xt3_xor (a b : Byte) (ha : a < 256) (hb : b < 256) :
    xtime (xtime (xtime (a ^^^ b))) = xtime (xtime (xtime a)) ^^^ xtime (xtime (xtime b)) := by
  rw [xtime_xor a b ha hb, xtime_xor _ _ (xtime_lt a ha) (xtime_lt b hb),
    xtime_xor _ _ (xtime_lt _ (xtime_lt a ha)) (xtime_lt _ (xtime_lt b hb))]

theorem mul9_xor (a b : Byte) (ha : a < 256) (hb : b < 256) :
    mul9 (a ^^^ b) = mul9 a ^^^ mul9 b := by
  unfold mul9
  rw [xt3_xor a b ha hb]
  exact xor_pair_swap _ _ _ _

theorem mul11_xor (a b : Byte) (ha : a < 256) (hb : b < 256) :
    mul11 (a ^^^ b) = mul11 a ^^^ mul11 b := by
  unfold mul11
  rw [xt3_xor a b ha hb, xtime_xor a b ha hb, xor_pair_swap (xtime a) (xtime b) a b]
  exact xor_pair_swap _ _ _ _

theorem mul13_xor (a b : Byte) (ha : a < 256) (hb : b < 256) :
    mul13 (a ^^^ b) = mul13 a ^^^ mul13 b := by
  unfold mul13
  rw [xt3_xor a b ha hb, xt2_xor a b ha hb,
    xor_pair_swap (xtime (xtime a)) (xtime (xtime b)) a b]
  exact xor_pair_swap _ _ _ _

theorem mul14_xor (a b : Byte) (ha : a < 256) (hb : b < 256) :
    mul14 (a ^^^ b) = mul14 a ^^^ mul14 b := by
  unfold mul14
  rw [xt3_xor a b ha hb, xt2_xor a b ha hb, xtime_xor a b ha hb,
    xor_pair_swap (xtime (xtime a)) (xtime (xtime b)) (xtime a) (xtime b)]
  exact xor_pair_swap _ _ _ _

theorem mul9_xor4 (p q r s : Byte) (hp : p < 256) (hq : q < 256) (hr : r < 256)
    (hs : s < 256) :
    mul9 (p ^^^ q ^^^ r ^^^ s) = mul9 p ^^^ mul9 q ^^^ mul9 r ^^^ mul9 s := by
  rw [mul9_xor _ s (xor_lt_256 _ r (xor_lt_256 p q hp hq) hr) hs,
    mul9_xor _ r (xor_lt_256 p q hp hq) hr, mul9_xor p q hp hq]

theorem mul11_xor4 (p q r s : Byte) (hp : p < 256) (hq : q < 256) (hr : r < 256)
    (hs : s < 256) :
    mul11 (p ^^^ q ^^^ r ^^^ s) = mul11 p ^^^ mul11 q ^^^ mul11 r ^^^ mul11 s := by
  rw [mul11_xor _ s (xor_lt_256 _ r (xor_lt_256 p q hp hq) hr) hs,
    mul11_xor _ r (xor_lt_256 p q hp hq) hr, mul11_xor p q hp hq]

theorem mul13_xor4 (p q r s : Byte) (hp : p < 256) (hq : q < 256) (hr : r < 256)
    (hs : s < 256) :
    mul13 (p ^^^ q ^^^ r ^^^ s) = mul13 p ^^^ mul13 q ^^^ mul13 r ^^^ mul13 s := by
  rw [mul13_xor _ s (xor_lt_256 _ r (xor_lt_256 p q hp hq) hr) hs,
    mul13_xor _ r (xor_lt_256 p q hp hq) hr, mul13_xor p q hp hq]

theorem mul14_xor4 (p q r s : Byte) (hp : p < 256) (hq : q < 256) (hr : r < 256)
    (hs : s < 256) :
    mul14 (p ^^^ q ^^^ r ^^^ s) = mul14 p ^^^ mul14 q ^^^ mul14 r ^^^ mul14 s := by
  rw [mul14_xor _ s (xor_lt_256 _ r (xor_lt_256 p q hp hq) hr) hs,
    mul14_xor _ r (xor_lt_256 p q hp hq) hr, mul14_xor p q hp hq]

theorem xor_transpose4 (a0 a1 a2 a3 b0 b1 b2 b3 c0 c1 c2 c3 e0 e1 e2 e3 : Nat) :
    (a0 ^^^ a1 ^^^ a2 ^^^ a3) ^^^ (b0 ^^^ b1 ^^^ b2 ^^^ b3) ^^^ (c0 ^^^ c1 ^^^ c2 ^^^ c3)
      ^^^ (e0 ^^^ e1 ^^^ e2 ^^^ e3)
    = (a0 ^^^ b0 ^^^ c0 ^^^ e0) ^^^ (a1 ^^^ b1 ^^^ c1 ^^^ e1) ^^^ (a2 ^^^ b2 ^^^ c2 ^^^ e2)
      ^^^ (a3 ^^^ b3 ^^^ c3 ^^^ e3) := by
  ac_rfl
def sboxTable : List Byte := [
  0x63, 0x7c, 0x77, 0x7b, 0xf2, 0x6b, 0x6f, 0xc5, 0x30, 0x01, 0x67, 0x2b, 0xfe, 0xd7, 0xab, 0x76,
  0xca, 0x82, 0xc9, 0x7d, 0xfa, 0x59, 0x47, 0xf0, 0xad, 0xd4, 0xa2, 0xaf, 0x9c, 0xa4, 0x72, 0xc0,
  0xb7, 0xfd, 0x93, 0x26, 0x36, 0x3f, 0xf7, 0xcc, 0x34, 0xa5, 0xe5, 0xf1, 0x71, 0xd8, 0x31, 0x15,
  0x04, 0xc7, 0x23, 0xc3, 0x18, 0x96, 0x05, 0x9a, 0x07, 0x12, 0x80, 0xe2, 0xeb, 0x27, 0xb2, 0x75,
  0x09, 0x83, 0x2c, 0x1a, 0x1b, 0x6e, 0x5a, 0xa0, 0x52, 0x3b, 0xd6, 0xb3, 0x29, 0xe3, 0x2f, 0x84,
  0x53, 0xd1, 0x00, 0xed, 0x20, 0xfc, 0xb1, 0x5b, 0x6a, 0xcb, 0xbe, 0x39, 0x4a, 0x4c, 0x58, 0xcf,
  0xd0, 0xef, 0xaa, 0xfb, 0x43, 0x4d, 0x33, 0x85, 0x45, 0xf9, 0x02, 0x7f, 0x50, 0x3c, 0x9f, 0xa8,
  0x51, 0xa3, 0x40, 0x8f, 0x92, 0x9d, 0x38, 0xf5, 0xbc, 0xb6, 0xda, 0x21, 0x10, 0xff, 0xf3, 0xd2,
  0xcd, 0x0c, 0x13, 0xec, 0x5f, 0x97, 0x44, 0x17, 0xc4, 0xa7, 0x7e, 0x3d, 0x64, 0x5d, 0x19, 0x73,
  0x60, 0x81, 0x4f, 0xdc, 0x22, 0x2a, 0x90, 0x88, 0x46, 0xee, 0xb8, 0x14, 0xde, 0x5e, 0x0b, 0xdb,
  0xe0, 0x32, 0x3a, 0x0a, 0x49, 0x06, 0x24, 0x5c, 0xc2, 0xd3, 0xac, 0x62, 0x91, 0x95, 0xe4, 0x79,
  0xe7, 0xc8, 0x37, 0x6d, 0x8d, 0xd5, 0x4e, 0xa9, 0x6c, 0x56, 0xf4, 0xea, 0x65, 0x7a, 0xae, 0x08,
  0xba, 0x78, 0x25, 0x2e, 0x1c, 0xa6, 0xb4, 0xc6, 0xe8, 0xdd, 0x74, 0x1f, 0x4b, 0xbd, 0x8b, 0x8a,
  0x70, 0x3e, 0xb5, 0x66, 0x48, 0x03, 0xf6, 0x0e, 0x61, 0x35, 0x57, 0xb9, 0x86, 0xc1, 0x1d, 0x9e,
  0xe1, 0xf8, 0x98, 0x11, 0x69, 0xd9, 0x8e, 0x94, 0x9b, 0x1e, 0x87, 0xe9, 0xce, 0x55, 0x28, 0xdf,
  0x8c, 0xa1, 0x89, 0x0d, 0xbf, 0xe6, 0x42, 0x68, 0x41, 0x99, 0x2d, 0x0f, 0xb0, 0x54, 0xbb, 0x16]

def invSboxTable : List Byte := [
  0x52, 0x09, 0x6a, 0xd5, 0x30, 0x36, 0xa5, 0x38, 0xbf, 0x40, 0xa3, 0x9e, 0x81, 0xf3, 0xd7, 0xfb,
  0x7c, 0xe3, 0x39, 0x82, 0x9b, 0x2f, 0xff, 0x87, 0x34, 0x8e, 0x43, 0x44, 0xc4, 0xde, 0xe9, 0xcb,
  0x54, 0x7b, 0x94, 0x32, 0xa6, 0xc2, 0x23, 0x3d, 0xee, 0x4c, 0x95, 0x0b, 0x42, 0xfa, 0xc3, 0x4e,
  0x08, 0x2e, 0xa1, 0x66, 0x28, 0xd9, 0x24, 0xb2, 0x76, 0x5b, 0xa2, 0x49, 0x6d, 0x8b, 0xd1, 0x25,
  0x72, 0xf8, 0xf6, 0x64, 0x86, 0x68, 0x98, 0x16, 0xd4, 0xa4, 0x5c, 0xcc, 0x5d, 0x65, 0xb6, 0x92,
  0x6c, 0x70, 0x48, 0x50, 0xfd, 0xed, 0xb9, 0xda, 0x5e, 0x15, 0x46, 0x57, 0xa7, 0x8d, 0x9d, 0x84,
  0x90, 0xd8, 0xab, 0x00, 0x8c, 0xbc, 0xd3, 0x0a, 0xf7, 0xe4, 0x58, 0x05, 0xb8, 0xb3, 0x45, 0x06,
  0xd0, 0x2c, 0x1e, 0x8f, 0xca, 0x3f, 0x0f, 0x02, 0xc1, 0xaf, 0xbd, 0x03, 0x01, 0x13, 0x8a, 0x6b,
  0x3a, 0x91, 0x11, 0x41, 0x4f, 0x67, 0xdc, 0xea, 0x97, 0xf2, 0xcf, 0xce, 0xf0, 0xb4, 0xe6, 0x73,
  0x96, 0xac, 0x74, 0x22, 0xe7, 0xad, 0x35, 0x85, 0xe2, 0xf9, 0x37, 0xe8, 0x1c, 0x75, 0xdf, 0x6e,
  0x47, 0xf1, 0x1a, 0x71, 0x1d, 0x29, 0xc5, 0x89, 0x6f, 0xb7, 0x62, 0x0e, 0xaa, 0x18, 0xbe, 0x1b,
  0xfc, 0x56, 0x3e, 0x4b, 0xc6, 0xd2, 0x79, 0x20, 0x9a, 0xdb, 0xc0, 0xfe, 0x78, 0xcd, 0x5a, 0xf4,
  0x1f, 0xdd, 0xa8, 0x33, 0x88, 0x07, 0xc7, 0x31, 0xb1, 0x12, 0x10, 0x59, 0x27, 0x80, 0xec, 0x5f,
  0x60, 0x51, 0x7f, 0xa9, 0x19, 0xb5, 0x4a, 0x0d, 0x2d, 0xe5, 0x7a, 0x9f, 0x93, 0xc9, 0x9c, 0xef,
  0xa0, 0xe0, 0x3b, 0x4d, 0xae, 0x2a, 0xf5, 0xb0, 0xc8, 0xeb, 0xbb, 0x3c, 0x83, 0x53, 0x99, 0x61,
  0x17, 0x2b, 0x04, 0x7e, 0xba, 0x77, 0xd6, 0x26, 0xe1, 0x69, 0x14, 0x63, 0x55, 0x21, 0x0c, 0x7d]

/-- The AES S-box as a table lookup. -/
def sbox (b : Byte) : Byte := sboxTable.getD (b % 256) 0

/-- The inverse AES S-box. -/
def invSbox (b : Byte) : Byte := invSboxTable.getD (b % 256) 0

theorem sbox_lt (b : Byte) : sbox b < 256 := by
  have h : ∀ i < 256, sboxTable.getD i 0 < 256 := by decide
  exact h (b % 256) (Nat.mod_lt b (by norm_num))

theorem sbox_inv : ∀ b < 256, invSbox (sbox b) = b := by decide
/-- One 16-byte AES state block, in the flat byte order of the FIPS-197
state (byte `i` holds state row `i % 4`, column `i / 4`). -/
structure AESBlock where
  (s0 : Byte) (s1 : Byte) (s2 : Byte) (s3 : Byte) (s4 : Byte) (s5 : Byte) (s6 : Byte) (s7 : Byte)
  (s8 : Byte) (s9 : Byte) (s10 : Byte) (s11 : Byte) (s12 : Byte) (s13 : Byte) (s14 : Byte) (s15 : Byte)
deriving DecidableEq

/-- All sixteen bytes of the block are in range. -/
def blockWF (b : AESBlock) : Prop :=
  b.s0 < 256 ∧ b.s1 < 256 ∧ b.s2 < 256 ∧ b.s3 < 256 ∧ b.s4 < 256 ∧ b.s5 < 256 ∧ b.s6 < 256 ∧ b.s7 < 256 ∧ b.s8 < 256 ∧ b.s9 < 256 ∧ b.s10 < 256 ∧ b.s11 < 256 ∧ b.s12 < 256 ∧ b.s13 < 256 ∧ b.s14 < 256 ∧ b.s15 < 256

instance (b : AESBlock) : Decidable (blockWF b) := by
  unfold blockWF
  infer_instance

/-- SubBytes: the S-box applied to every byte. -/
def subBytesB (b : AESBlock) : AESBlock :=
  ⟨sbox b.s0, sbox b.s1, sbox b.s2, sbox b.s3, sbox b.s4, sbox b.s5, sbox b.s6, sbox b.s7, sbox b.s8, sbox b.s9, sbox b.s10, sbox b.s11, sbox b.s12, sbox b.s13, sbox b.s14, sbox b.s15⟩

/-- InvSubBytes. -/
def invSubBytesB (b : AESBlock) : AESBlock :=
  ⟨invSbox b.s0, invSbox b.s1, invSbox b.s2, invSbox b.s3, invSbox b.s4, invSbox b.s5, invSbox b.s6, invSbox b.s7, invSbox b.s8, invSbox b.s9, invSbox b.s10, invSbox b.s11, invSbox b.s12, invSbox b.s13, invSbox b.s14, invSbox b.s15⟩

/-- ShiftRows: row `r` rotated left by `r` (on the flat layout). -/
def shiftRowsB (b : AESBlock) : AESBlock :=
  ⟨b.s0, b.s5, b.s10, b.s15, b.s4, b.s9, b.s14, b.s3, b.s8, b.s13, b.s2, b.s7, b.s12, b.s1, b.s6, b.s11⟩

/-- InvShiftRows: row `r` rotated right by `r`. -/
def invShiftRowsB (b : AESBlock) : AESBlock :=
  ⟨b.s0, b.s13, b.s10, b.s7, b.s4, b.s1, b.s14, b.s11, b.s8, b.s5, b.s2, b.s15, b.s12, b.s9, b.s6, b.s3⟩

/-- AddRoundKey: byte-wise xor with the round key block. -/
def addRoundKeyB (b k : AESBlock) : AESBlock :=
  ⟨b.s0 ^^^ k.s0, b.s1 ^^^ k.s1, b.s2 ^^^ k.s2, b.s3 ^^^ k.s3, b.s4 ^^^ k.s4, b.s5 ^^^ k.s5, b.s6 ^^^ k.s6, b.s7 ^^^ k.s7, b.s8 ^^^ k.s8, b.s9 ^^^ k.s9, b.s10 ^^^ k.s10, b.s11 ^^^ k.s11, b.s12 ^^^ k.s12, b.s13 ^^^ k.s13, b.s14 ^^^ k.s14, b.s15 ^^^ k.s15⟩

/-- MixColumns on each of the four columns. -/
def mixColumnsB (b : AESBlock) : AESBlock :=
  ⟨mul2 b.s0 ^^^ mul3 b.s1 ^^^ b.s2 ^^^ b.s3,
   b.s0 ^^^ mul2 b.s1 ^^^ mul3 b.s2 ^^^ b.s3,
   b.s0 ^^^ b.s1 ^^^ mul2 b.s2 ^^^ mul3 b.s3,
   mul3 b.s0 ^^^ b.s1 ^^^ b.s2 ^^^ mul2 b.s3,
   mul2 b.s4 ^^^ mul3 b.s5 ^^^ b.s6 ^^^ b.s7,
   b.s4 ^^^ mul2 b.s5 ^^^ mul3 b.s6 ^^^ b.s7,
   b.s4 ^^^ b.s5 ^^^ mul2 b.s6 ^^^ mul3 b.s7,
   mul3 b.s4 ^^^ b.s5 ^^^ b.s6 ^^^ mul2 b.s7,
   mul2 b.s8 ^^^ mul3 b.s9 ^^^ b.s10 ^^^ b.s11,
   b.s8 ^^^ mul2 b.s9 ^^^ mul3 b.s10 ^^^ b.s11,
   b.s8 ^^^ b.s9 ^^^ mul2 b.s10 ^^^ mul3 b.s11,
   mul3 b.s8 ^^^ b.s9 ^^^ b.s10 ^^^ mul2 b.s11,
   mul2 b.s12 ^^^ mul3 b.s13 ^^^ b.s14 ^^^ b.s15,
   b.s12 ^^^ mul2 b.s13 ^^^ mul3 b.s14 ^^^ b.s15,
   b.s12 ^^^ b.s13 ^^^ mul2 b.s14 ^^^ mul3 b.s15,
   mul3 b.s12 ^^^ b.s13 ^^^ b.s14 ^^^ mul2 b.s15⟩

/-- InvMixColumns on each of the four columns. -/
def invMixColumnsB (b : AESBlock) : AESBlock :=
  ⟨mul14 b.s0 ^^^ mul11 b.s1 ^^^ mul13 b.s2 ^^^ mul9 b.s3,
   mul9 b.s0 ^^^ mul14 b.s1 ^^^ mul11 b.s2 ^^^ mul13 b.s3,
   mul13 b.s0 ^^^ mul9 b.s1 ^^^ mul14 b.s2 ^^^ mul11 b.s3,
   mul11 b.s0 ^^^ mul13 b.s1 ^^^ mul9 b.s2 ^^^ mul14 b.s3,
   mul14 b.s4 ^^^ mul11 b.s5 ^^^ mul13 b.s6 ^^^ mul9 b.s7,
   mul9 b.s4 ^^^ mul14 b.s5 ^^^ mul11 b.s6 ^^^ mul13 b.s7,
   mul13 b.s4 ^^^ mul9 b.s5 ^^^ mul14 b.s6 ^^^ mul11 b.s7,
   mul11 b.s4 ^^^ mul13 b.s5 ^^^ mul9 b.s6 ^^^ mul14 b.s7,
   mul14 b.s8 ^^^ mul11 b.s9 ^^^ mul13 b.s10 ^^^ mul9 b.s11,
   mul9 b.s8 ^^^ mul14 b.s9 ^^^ mul11 b.s10 ^^^ mul13 b.s11,
   mul13 b.s8 ^^^ mul9 b.s9 ^^^ mul14 b.s10 ^^^ mul11 b.s11,
   mul11 b.s8 ^^^ mul13 b.s9 ^^^ mul9 b.s10 ^^^ mul14 b.s11,
   mul14 b.s12 ^^^ mul11 b.s13 ^^^ mul13 b.s14 ^^^ mul9 b.s15,
   mul9 b.s12 ^^^ mul14 b.s13 ^^^ mul11 b.s14 ^^^ mul13 b.s15,
   mul13 b.s12 ^^^ mul9 b.s13 ^^^ mul14 b.s14 ^^^ mul11 b.s15,
   mul11 b.s12 ^^^ mul13 b.s13 ^^^ mul9 b.s14 ^^^ mul14 b.s15⟩

theorem gfCoef00 : ∀ a < 256, mul14 (mul2 a) ^^^ mul11 a ^^^ mul13 a ^^^ mul9 (mul3 a) = a := by
  decide

theorem gfCoef01 : ∀ a < 256, mul14 (mul3 a) ^^^ mul11 (mul2 a) ^^^ mul13 a ^^^ mul9 a = 0 := by
  decide

theorem gfCoef02 : ∀ a < 256, mul14 a ^^^ mul11 (mul3 a) ^^^ mul13 (mul2 a) ^^^ mul9 a = 0 := by
  decide

theorem gfCoef03 : ∀ a < 256, mul14 a ^^^ mul11 a ^^^ mul13 (mul3 a) ^^^ mul9 (mul2 a) = 0 := by
  decide

theorem gfCoef10 : ∀ a < 256, mul9 (mul2 a) ^^^ mul14 a ^^^ mul11 a ^^^ mul13 (mul3 a) = 0 := by
  decide

theorem gfCoef11 : ∀ a < 256, mul9 (mul3 a) ^^^ mul14 (mul2 a) ^^^ mul11 a ^^^ mul13 a = a := by
  decide

theorem gfCoef12 : ∀ a < 256, mul9 a ^^^ mul14 (mul3 a) ^^^ mul11 (mul2 a) ^^^ mul13 a = 0 := by
  decide

theorem gfCoef13 : ∀ a < 256, mul9 a ^^^ mul14 a ^^^ mul11 (mul3 a) ^^^ mul13 (mul2 a) = 0 := by
  decide

theorem gfCoef20 : ∀ a < 256, mul13 (mul2 a) ^^^ mul9 a ^^^ mul14 a ^^^ mul11 (mul3 a) = 0 := by
  decide

theorem gfCoef21 : ∀ a < 256, mul13 (mul3 a) ^^^ mul9 (mul2 a) ^^^ mul14 a ^^^ mul11 a = 0 := by
  decide

theorem gfCoef22 : ∀ a < 256, mul13 a ^^^ mul9 (mul3 a) ^^^ mul14 (mul2 a) ^^^ mul11 a = a := by
  decide

theorem gfCoef23 : ∀ a < 256, mul13 a ^^^ mul9 a ^^^ mul14 (mul3 a) ^^^ mul11 (mul2 a) = 0 := by
  decide

theorem gfCoef30 : ∀ a < 256, mul11 (mul2 a) ^^^ mul13 a ^^^ mul9 a ^^^ mul14 (mul3 a) = 0 := by
  decide

theorem gfCoef31 : ∀ a < 256, mul11 (mul3 a) ^^^ mul13 (mul2 a) ^^^ mul9 a ^^^ mul14 a = 0 := by
  decide

theorem gfCoef32 : ∀ a < 256, mul11 a ^^^ mul13 (mul3 a) ^^^ mul9 (mul2 a) ^^^ mul14 a = 0 := by
  decide

theorem gfCoef33 : ∀ a < 256, mul11 a ^^^ mul13 a ^^^ mul9 (mul3 a) ^^^ mul14 (mul2 a) = a := by
  decide

theorem invMix_row0 (a0 a1 a2 a3 : Byte) (h0 : a0 < 256) (h1 : a1 < 256)
    (h2 : a2 < 256) (h3 : a3 < 256) :
    mul14 (mul2 a0 ^^^ mul3 a1 ^^^ a2 ^^^ a3) ^^^ mul11 (a0 ^^^ mul2 a1 ^^^ mul3 a2 ^^^ a3) ^^^ mul13 (a0 ^^^ a1 ^^^ mul2 a2 ^^^ mul3 a3) ^^^ mul9 (mul3 a0 ^^^ a1 ^^^ a2 ^^^ mul2 a3)
      = a0 := by
  rw [mul14_xor4 _ _ _ _ (mul2_lt a0 h0) (mul3_lt a1 h1) h2 h3,
    mul11_xor4 _ _ _ _ h0 (mul2_lt a1 h1) (mul3_lt a2 h2) h3,
    mul13_xor4 _ _ _ _ h0 h1 (mul2_lt a2 h2) (mul3_lt a3 h3),
    mul9_xor4 _ _ _ _ (mul3_lt a0 h0) h1 h2 (mul2_lt a3 h3),
    xor_transpose4,
    gfCoef00 a0 h0, gfCoef01 a1 h1, gfCoef02 a2 h2, gfCoef03 a3 h3]
  simp

theorem invMix_row1 (a0 a1 a2 a3 : Byte) (h0 : a0 < 256) (h1 : a1 < 256)
    (h2 : a2 < 256) (h3 : a3 < 256) :
    mul9 (mul2 a0 ^^^ mul3 a1 ^^^ a2 ^^^ a3) ^^^ mul14 (a0 ^^^ mul2 a1 ^^^ mul3 a2 ^^^ a3) ^^^ mul11 (a0 ^^^ a1 ^^^ mul2 a2 ^^^ mul3 a3) ^^^ mul13 (mul3 a0 ^^^ a1 ^^^ a2 ^^^ mul2 a3)
      = a1 := by
  rw [mul9_xor4 _ _ _ _ (mul2_lt a0 h0) (mul3_lt a1 h1) h2 h3,
    mul14_xor4 _ _ _ _ h0 (mul2_lt a1 h1) (mul3_lt a2 h2) h3,
    mul11_xor4 _ _ _ _ h0 h1 (mul2_lt a2 h2) (mul3_lt a3 h3),
    mul13_xor4 _ _ _ _ (mul3_lt a0 h0) h1 h2 (mul2_lt a3 h3),
    xor_transpose4,
    gfCoef10 a0 h0, gfCoef11 a1 h1, gfCoef12 a2 h2, gfCoef13 a3 h3]
  simp

theorem invMix_row2 (a0 a1 a2 a3 : Byte) (h0 : a0 < 256) (h1 : a1 < 256)
    (h2 : a2 < 256) (h3 : a3 < 256) :
    mul13 (mul2 a0 ^^^ mul3 a1 ^^^ a2 ^^^ a3) ^^^ mul9 (a0 ^^^ mul2 a1 ^^^ mul3 a2 ^^^ a3) ^^^ mul14 (a0 ^^^ a1 ^^^ mul2 a2 ^^^ mul3 a3) ^^^ mul11 (mul3 a0 ^^^ a1 ^^^ a2 ^^^ mul2 a3)
      = a2 := by
  rw [mul13_xor4 _ _ _ _ (mul2_lt a0 h0) (mul3_lt a1 h1) h2 h3,
    mul9_xor4 _ _ _ _ h0 (mul2_lt a1 h1) (mul3_lt a2 h2) h3,
    mul14_xor4 _ _ _ _ h0 h1 (mul2_lt a2 h2) (mul3_lt a3 h3),
    mul11_xor4 _ _ _ _ (mul3_lt a0 h0) h1 h2 (mul2_lt a3 h3),
    xor_transpose4,
    gfCoef20 a0 h0, gfCoef21 a1 h1, gfCoef22 a2 h2, gfCoef23 a3 h3]
  simp

theorem invMix_row3 (a0 a1 a2 a3 : Byte) (h0 : a0 < 256) (h1 : a1 < 256)
    (h2 : a2 < 256) (h3 : a3 < 256) :
    mul11 (mul2 a0 ^^^ mul3 a1 ^^^ a2 ^^^ a3) ^^^ mul13 (a0 ^^^ mul2 a1 ^^^ mul3 a2 ^^^ a3) ^^^ mul9 (a0 ^^^ a1 ^^^ mul2 a2 ^^^ mul3 a3) ^^^ mul14 (mul3 a0 ^^^ a1 ^^^ a2 ^^^ mul2 a3)
      = a3 := by
  rw [mul11_xor4 _ _ _ _ (mul2_lt a0 h0) (mul3_lt a1 h1) h2 h3,
    mul13_xor4 _ _ _ _ h0 (mul2_lt a1 h1) (mul3_lt a2 h2) h3,
    mul9_xor4 _ _ _ _ h0 h1 (mul2_lt a2 h2) (mul3_lt a3 h3),
    mul14_xor4 _ _ _ _ (mul3_lt a0 h0) h1 h2 (mul2_lt a3 h3),
    xor_transpose4,
    gfCoef30 a0 h0, gfCoef31 a1 h1, gfCoef32 a2 h2, gfCoef33 a3 h3]
  simp
theorem subBytes_wf (b : AESBlock) : blockWF (subBytesB b) :=
  ⟨sbox_lt _, sbox_lt _, sbox_lt _, sbox_lt _, sbox_lt _, sbox_lt _, sbox_lt _, sbox_lt _, sbox_lt _, sbox_lt _, sbox_lt _, sbox_lt _, sbox_lt _, sbox_lt _, sbox_lt _, sbox_lt _⟩

theorem shiftRows_wf (b : AESBlock) (h : blockWF b) : blockWF (shiftRowsB b) := by
  obtain ⟨h0, h1, h2, h3, h4, h5, h6, h7, h8, h9, h10, h11, h12, h13, h14, h15⟩ := h
  exact ⟨h0, h5, h10, h15, h4, h9, h14, h3, h8, h13, h2, h7, h12, h1, h6, h11⟩

theorem ark_wf (b k : AESBlock) (hb : blockWF b) (hk : blockWF k) :
    blockWF (addRoundKeyB b k) := by
  obtain ⟨h0, h1, h2, h3, h4, h5, h6, h7, h8, h9, h10, h11, h12, h13, h14, h15⟩ := hb
  obtain ⟨g0, g1, g2, g3, g4, g5, g6, g7, g8, g9, g10, g11, g12, g13, g14, g15⟩ := hk
  exact ⟨xor_lt_256 _ _ h0 g0, xor_lt_256 _ _ h1 g1, xor_lt_256 _ _ h2 g2, xor_lt_256 _ _ h3 g3, xor_lt_256 _ _ h4 g4, xor_lt_256 _ _ h5 g5, xor_lt_256 _ _ h6 g6, xor_lt_256 _ _ h7 g7, xor_lt_256 _ _ h8 g8, xor_lt_256 _ _ h9 g9, xor_lt_256 _ _ h10 g10, xor_lt_256 _ _ h11 g11, xor_lt_256 _ _ h12 g12, xor_lt_256 _ _ h13 g13, xor_lt_256 _ _ h14 g14, xor_lt_256 _ _ h15 g15⟩

theorem mix_wf (b : AESBlock) (h : blockWF b) : blockWF (mixColumnsB b) := by
  obtain ⟨h0, h1, h2, h3, h4, h5, h6, h7, h8, h9, h10, h11, h12, h13, h14, h15⟩ := h
  refine ⟨?_, ?_, ?_, ?_, ?_, ?_, ?_, ?_, ?_, ?_, ?_, ?_, ?_, ?_, ?_, ?_⟩
  · exact xor_lt_256 _ _ (xor_lt_256 _ _ (xor_lt_256 _ _ (mul2_lt _ h0) (mul3_lt _ h1)) h2) h3
  · exact xor_lt_256 _ _ (xor_lt_256 _ _ (xor_lt_256 _ _ h0 (mul2_lt _ h1)) (mul3_lt _ h2)) h3
  · exact xor_lt_256 _ _ (xor_lt_256 _ _ (xor_lt_256 _ _ h0 h1) (mul2_lt _ h2)) (mul3_lt _ h3)
  · exact xor_lt_256 _ _ (xor_lt_256 _ _ (xor_lt_256 _ _ (mul3_lt _ h0) h1) h2) (mul2_lt _ h3)
  · exact xor_lt_256 _ _ (xor_lt_256 _ _ (xor_lt_256 _ _ (mul2_lt _ h4) (mul3_lt _ h5)) h6) h7
  · exact xor_lt_256 _ _ (xor_lt_256 _ _ (xor_lt_256 _ _ h4 (mul2_lt _ h5)) (mul3_lt _ h6)) h7
  · exact xor_lt_256 _ _ (xor_lt_256 _ _ (xor_lt_256 _ _ h4 h5) (mul2_lt _ h6)) (mul3_lt _ h7)
  · exact xor_lt_256 _ _ (xor_lt_256 _ _ (xor_lt_256 _ _ (mul3_lt _ h4) h5) h6) (mul2_lt _ h7)
  · exact xor_lt_256 _ _ (xor_lt_256 _ _ (xor_lt_256 _ _ (mul2_lt _ h8) (mul3_lt _ h9)) h10) h11
  · exact xor_lt_256 _ _ (xor_lt_256 _ _ (xor_lt_256 _ _ h8 (mul2_lt _ h9)) (mul3_lt _ h10)) h11
  · exact xor_lt_256 _ _ (xor_lt_256 _ _ (xor_lt_256 _ _ h8 h9) (mul2_lt _ h10)) (mul3_lt _ h11)
  · exact xor_lt_256 _ _ (xor_lt_256 _ _ (xor_lt_256 _ _ (mul3_lt _ h8) h9) h10) (mul2_lt _ h11)
  · exact xor_lt_256 _ _ (xor_lt_256 _ _ (xor_lt_256 _ _ (mul2_lt _ h12) (mul3_lt _ h13)) h14) h15
  · exact xor_lt_256 _ _ (xor_lt_256 _ _ (xor_lt_256 _ _ h12 (mul2_lt _ h13)) (mul3_lt _ h14)) h15
  · exact xor_lt_256 _ _ (xor_lt_256 _ _ (xor_lt_256 _ _ h12 h13) (mul2_lt _ h14)) (mul3_lt _ h15)
  · exact xor_lt_256 _ _ (xor_lt_256 _ _ (xor_lt_256 _ _ (mul3_lt _ h12) h13) h14) (mul2_lt _ h15)

theorem invSub_sub (b : AESBlock) (h : blockWF b) : invSubBytesB (subBytesB b) = b := by
  obtain ⟨h0, h1, h2, h3, h4, h5, h6, h7, h8, h9, h10, h11, h12, h13, h14, h15⟩ := h
  cases b
  simp only [subBytesB, invSubBytesB, AESBlock.mk.injEq]
  exact ⟨sbox_inv _ h0, sbox_inv _ h1, sbox_inv _ h2, sbox_inv _ h3, sbox_inv _ h4, sbox_inv _ h5, sbox_inv _ h6, sbox_inv _ h7, sbox_inv _ h8, sbox_inv _ h9, sbox_inv _ h10, sbox_inv _ h11, sbox_inv _ h12, sbox_inv _ h13, sbox_inv _ h14, sbox_inv _ h15⟩

theorem invShift_shift (b : AESBlock) : invShiftRowsB (shiftRowsB b) = b := rfl

theorem ark_ark (b k : AESBlock) : addRoundKeyB (addRoundKeyB b k) k = b := by
  cases b
  cases k
  simp [addRoundKeyB, Nat.xor_assoc]

theorem invMix_mix (b : AESBlock) (h : blockWF b) : invMixColumnsB (mixColumnsB b) = b := by
  obtain ⟨h0, h1, h2, h3, h4, h5, h6, h7, h8, h9, h10, h11, h12, h13, h14, h15⟩ := h
  cases b
  simp only [mixColumnsB, invMixColumnsB, AESBlock.mk.injEq]
  refine ⟨?_, ?_, ?_, ?_, ?_, ?_, ?_, ?_, ?_, ?_, ?_, ?_, ?_, ?_, ?_, ?_⟩
  · exact invMix_row0 _ _ _ _ h0 h1 h2 h3
  · exact invMix_row1 _ _ _ _ h0 h1 h2 h3
  · exact invMix_row2 _ _ _ _ h0 h1 h2 h3
  · exact invMix_row3 _ _ _ _ h0 h1 h2 h3
  · exact invMix_row0 _ _ _ _ h4 h5 h6 h7
  · exact invMix_row1 _ _ _ _ h4 h5 h6 h7
  · exact invMix_row2 _ _ _ _ h4 h5 h6 h7
  · exact invMix_row3 _ _ _ _ h4 h5 h6 h7
  · exact invMix_row0 _ _ _ _ h8 h9 h10 h11
  · exact invMix_row1 _ _ _ _ h8 h9 h10 h11
  · exact invMix_row2 _ _ _ _ h8 h9 h10 h11
  · exact invMix_row3 _ _ _ _ h8 h9 h10 h11
  · exact invMix_row0 _ _ _ _ h12 h13 h14 h15
  · exact invMix_row1 _ _ _ _ h12 h13 h14 h15
  · exact invMix_row2 _ _ _ _ h12 h13 h14 h15
  · exact invMix_row3 _ _ _ _ h12 h13 h14 h15
/-- A 4-byte word of the key schedule. -/
abbrev KWord := Byte × Byte × Byte × Byte

/-- SubWord of the key schedule. -/
def subWord (w : KWord) : KWord := (sbox w.1, sbox w.2.1, sbox w.2.2.1, sbox w.2.2.2)

/-- RotWord of the key schedule. -/
def rotWord (w : KWord) : KWord := (w.2.1, w.2.2.1, w.2.2.2, w.1)

/-- Byte-wise xor of two schedule words. -/
def wxor (a b : KWord) : KWord :=
  (a.1 ^^^ b.1, a.2.1 ^^^ b.2.1, a.2.2.1 ^^^ b.2.2.1, a.2.2.2 ^^^ b.2.2.2)

/-- The AES round constants used by the AES-256 schedule. -/
def rconTable : List Byte := [0x01, 0x02, 0x04, 0x08, 0x10, 0x20, 0x40]

/-- Group a byte list into 4-byte words (dropping a trailing partial
word). -/
def toWords : List Byte → List KWord
  | a :: b :: c :: d :: rest => (a, b, c, d) :: toWords rest
  | _ => []

/-- Append `fuel` further words of the AES-256 key schedule (FIPS-197
section 5.2 with Nk = 8). -/
def expandWords : Nat → List KWord → List KWord
  | 0, ws => ws
  | fuel + 1, ws =>
    let i := ws.length
    let temp := ws.getLastD (0, 0, 0, 0)
    let temp2 :=
      if i % 8 = 0 then
        wxor (subWord (rotWord temp)) (rconTable.getD (i / 8 - 1) 0, 0, 0, 0)
      else if i % 8 = 4 then subWord temp
      else temp
    expandWords fuel (ws ++ [wxor (ws.getD (i - 8) (0, 0, 0, 0)) temp2])

/-- The 60 words of the AES-256 key schedule. -/
def keyWords (key : List Byte) : List KWord := expandWords 52 (toWords key)

/-- Pack four schedule words into a round-key block (column-major). -/
def blockOfWords (w0 w1 w2 w3 : KWord) : AESBlock :=
  ⟨w0.1, w0.2.1, w0.2.2.1, w0.2.2.2, w1.1, w1.2.1, w1.2.2.1, w1.2.2.2,
   w2.1, w2.2.1, w2.2.2.1, w2.2.2.2, w3.1, w3.2.1, w3.2.2.1, w3.2.2.2⟩

/-- Group schedule words into round-key blocks. -/
def wordsToBlocks : List KWord → List AESBlock
  | w0 :: w1 :: w2 :: w3 :: rest => blockOfWords w0 w1 w2 w3 :: wordsToBlocks rest
  | _ => []

/-- The fifteen round keys of AES-256. -/
def roundKeys (key : List Byte) : List AESBlock := wordsToBlocks (keyWords key)

/-- All four bytes of a schedule word are in range. -/
def wordWF (w : KWord) : Prop := w.1 < 256 ∧ w.2.1 < 256 ∧ w.2.2.1 < 256 ∧ w.2.2.2 < 256

theorem subWord_wf (w : KWord) : wordWF (subWord w) :=
  ⟨sbox_lt _, sbox_lt _, sbox_lt _, sbox_lt _⟩

theorem rotWord_wf (w : KWord) (h : wordWF w) : wordWF (rotWord w) :=
  ⟨h.2.1, h.2.2.1, h.2.2.2, h.1⟩

theorem wxor_wf (a b : KWord) (ha : wordWF a) (hb : wordWF b) : wordWF (wxor a b) :=
  ⟨xor_lt_256 _ _ ha.1 hb.1, xor_lt_256 _ _ ha.2.1 hb.2.1,
   xor_lt_256 _ _ ha.2.2.1 hb.2.2.1, xor_lt_256 _ _ ha.2.2.2 hb.2.2.2⟩

theorem zeroWord_wf : wordWF ((0, 0, 0, 0) : KWord) := by
  refine ⟨?_, ?_, ?_, ?_⟩ <;> norm_num

theorem getLastD_wf (ws : List KWord) (d : KWord) (hd : wordWF d)
    (h : ∀ w ∈ ws, wordWF w) : wordWF (ws.getLastD d) := by
  induction ws generalizing d with
  | nil => exact hd
  | cons w rest ih =>
    rw [List.getLastD_cons]
    exact ih w (h w (List.mem_cons_self _ _)) (fun x hx => h x (List.mem_cons_of_mem _ hx))

theorem getD_wf (ws : List KWord) (i : Nat) (h : ∀ w ∈ ws, wordWF w) :
    wordWF (ws.getD i (0, 0, 0, 0)) := by
  induction ws generalizing i with
  | nil => cases i <;> exact zeroWord_wf
  | cons w rest ih =>
    cases i with
    | zero => exact h w (List.mem_cons_self _ _)
    | succ n =>
      rw [List.getD_cons_succ]
      exact ih n (fun x hx => h x (List.mem_cons_of_mem _ hx))

theorem rcon_lt (i : Nat) : rconTable.getD i 0 < 256 := by
  rcases Nat.lt_or_ge i 7 with h | h
  · exact (by decide : ∀ j < 7, rconTable.getD j 0 < 256) i h
  · rw [List.getD_eq_default]
    · norm_num
    · exact h

theorem expandWords_wf (fuel : Nat) (ws : List KWord) (h : ∀ w ∈ ws, wordWF w) :
    ∀ w ∈ expandWords fuel ws, wordWF w := by
  induction fuel generalizing ws with
  | zero => exact h
  | succ f ih =>
    simp only [expandWords]
    refine ih _ ?_
    intro w hw
    rcases List.mem_append.mp hw with hmem | hmem
    · exact h w hmem
    · rw [List.mem_singleton] at hmem
      subst hmem
      refine wxor_wf _ _ (getD_wf _ _ h) ?_
      split
      · exact wxor_wf _ _ (subWord_wf _) ⟨rcon_lt _, by norm_num, by norm_num, by norm_num⟩
      · split
        · exact subWord_wf _
        · exact getLastD_wf _ _ zeroWord_wf h

theorem toWords_wf (l : List Byte) (h : ∀ b ∈ l, b < 256) :
    ∀ w ∈ toWords l, wordWF w := by
  induction l using toWords.induct with
  | case1 a b c d rest ih =>
    intro w hw
    rw [toWords] at hw
    rcases List.mem_cons.mp hw with hh | hh
    · subst hh
      exact ⟨h a (by simp), h b (by simp), h c (by simp), h d (by simp)⟩
    · exact ih (fun x hx => h x (by simp [hx])) w hh
  | case2 l hne =>
    intro w hw
    rw [toWords] at hw
    · cases hw
    · exact hne

theorem blockOfWords_wf (w0 w1 w2 w3 : KWord) (h0 : wordWF w0) (h1 : wordWF w1)
    (h2 : wordWF w2) (h3 : wordWF w3) : blockWF (blockOfWords w0 w1 w2 w3) :=
  ⟨h0.1, h0.2.1, h0.2.2.1, h0.2.2.2, h1.1, h1.2.1, h1.2.2.1, h1.2.2.2,
   h2.1, h2.2.1, h2.2.2.1, h2.2.2.2, h3.1, h3.2.1, h3.2.2.1, h3.2.2.2⟩

theorem wordsToBlocks_wf (ws : List KWord) (h : ∀ w ∈ ws, wordWF w) :
    ∀ b ∈ wordsToBlocks ws, blockWF b := by
  induction ws using wordsToBlocks.induct with
  | case1 w0 w1 w2 w3 rest ih =>
    intro b hb
    rw [wordsToBlocks] at hb
    rcases List.mem_cons.mp hb with hh | hh
    · subst hh
      exact blockOfWords_wf _ _ _ _ (h w0 (by simp)) (h w1 (by simp)) (h w2 (by simp))
        (h w3 (by simp))
    · exact ih (fun x hx => h x (by simp [hx])) b hh
  | case2 l hne =>
    intro b hb
    rw [wordsToBlocks] at hb
    · cases hb
    · exact hne

theorem roundKeys_wf (key : List Byte) (h : ∀ b ∈ key, b < 256) :
    ∀ rk ∈ roundKeys key, blockWF rk :=
  wordsToBlocks_wf _ (expandWords_wf _ _ (toWords_wf _ h))

/-- One middle round of AES encryption with round key `k`. -/
def encRound (k : AESBlock) (s : AESBlock) : AESBlock :=
  addRoundKeyB (mixColumnsB (shiftRowsB (subBytesB s))) k

/-- The inverse of one middle round. -/
def decRound (k : AESBlock) (s : AESBlock) : AESBlock :=
  invSubBytesB (invShiftRowsB (invMixColumnsB (addRoundKeyB s k)))

/-- AES block encryption: initial AddRoundKey, the middle rounds, then
the final round without MixColumns. -/
def aesEncryptCore (k0 : AESBlock) (mids : List AESBlock) (klast : AESBlock)
    (p : AESBlock) : AESBlock :=
  addRoundKeyB
    (shiftRowsB (subBytesB (mids.foldl (fun s k => encRound k s) (addRoundKeyB p k0))))
    klast

/-- AES block decryption (straightforward inverse cipher). -/
def aesDecryptCore (k0 : AESBlock) (mids : List AESBlock) (klast : AESBlock)
    (c : AESBlock) : AESBlock :=
  addRoundKeyB
    ((mids.reverse).foldl (fun s k => decRound k s)
      (invSubBytesB (invShiftRowsB (addRoundKeyB c klast))))
    k0

theorem encRound_wf (k s : AESBlock) (hk : blockWF k) : blockWF (encRound k s) :=
  ark_wf _ _ (mix_wf _ (shiftRows_wf _ (subBytes_wf s))) hk

theorem decRound_encRound (k s : AESBlock) (hk : blockWF k) (hs : blockWF s) :
    decRound k (encRound k s) = s := by
  unfold decRound encRound
  rw [ark_ark, invMix_mix _ (shiftRows_wf _ (subBytes_wf s)), invShift_shift,
    invSub_sub _ hs]

theorem foldl_enc_wf (mids : List AESBlock) (s : AESBlock) (hs : blockWF s)
    (hm : ∀ k ∈ mids, blockWF k) :
    blockWF (mids.foldl (fun t k => encRound k t) s) := by
  induction mids generalizing s with
  | nil => exact hs
  | cons k rest ih =>
    rw [List.foldl_cons]
    exact ih (encRound k s) (encRound_wf k s (hm k (List.mem_cons_self _ _)))
      (fun x hx => hm x (List.mem_cons_of_mem _ hx))

theorem foldl_dec_enc (mids : List AESBlock) (s : AESBlock)
    (hm : ∀ k ∈ mids, blockWF k) (hs : blockWF s) :
    (mids.reverse).foldl (fun t k => decRound k t)
      (mids.foldl (fun t k => encRound k t) s) = s := by
  induction mids generalizing s with
  | nil => rfl
  | cons k rest ih =>
    rw [List.foldl_cons, List.reverse_cons, List.foldl_append, List.foldl_cons,
      List.foldl_nil]
    rw [ih (encRound k s) (fun x hx => hm x (List.mem_cons_of_mem _ hx))
      (encRound_wf k s (hm k (List.mem_cons_self _ _)))]
    exact decRound_encRound k s (hm k (List.mem_cons_self _ _)) hs

/-- AES decryption inverts AES encryption on well-formed blocks. -/
theorem aesDecrypt_aesEncrypt (k0 : AESBlock) (mids : List AESBlock) (klast : AESBlock)
    (p : AESBlock) (h0 : blockWF k0) (hm : ∀ k ∈ mids, blockWF k) (hl : blockWF klast)
    (hp : blockWF p) :
    aesDecryptCore k0 mids klast (aesEncryptCore k0 mids klast p) = p := by
  unfold aesEncryptCore aesDecryptCore
  rw [ark_ark, invShift_shift,
    invSub_sub _ (foldl_enc_wf mids _ (ark_wf p k0 hp h0) hm),
    foldl_dec_enc mids _ hm (ark_wf p k0 hp h0), ark_ark]

theorem aesEncryptCore_wf (k0 : AESBlock) (mids : List AESBlock) (klast : AESBlock)
    (p : AESBlock) (hl : blockWF klast) :
    blockWF (aesEncryptCore k0 mids klast p) :=
  ark_wf _ _ (shiftRows_wf _ (subBytes_wf _)) hl

/-- CBC encryption over a list of plaintext blocks, chaining from `prev`
(initially the IV). -/
def cbcEnc (k0 : AESBlock) (mids : List AESBlock) (klast : AESBlock) :
    AESBlock → List AESBlock → List AESBlock
  | _, [] => []
  | prev, p :: rest =>
    let c := aesEncryptCore k0 mids klast (addRoundKeyB p prev)
    c :: cbcEnc k0 mids klast c rest

/-- CBC decryption, chaining from `prev` (initially the IV). -/
def cbcDec (k0 : AESBlock) (mids : List AESBlock) (klast : AESBlock) :
    AESBlock → List AESBlock → List AESBlock
  | _, [] => []
  | prev, c :: rest =>
    addRoundKeyB (aesDecryptCore k0 mids klast c) prev :: cbcDec k0 mids klast c rest

theorem cbcEnc_wf (k0 : AESBlock) (mids : List AESBlock) (klast : AESBlock)
    (hl : blockWF klast) (prev : AESBlock) (ps : List AESBlock) :
    ∀ c ∈ cbcEnc k0 mids klast prev ps, blockWF c := by
  induction ps generalizing prev with
  | nil => intro c hc; cases hc
  | cons p rest ih =>
    intro c hc
    rw [cbcEnc] at hc
    rcases List.mem_cons.mp hc with hh | hh
    · subst hh
      exact aesEncryptCore_wf _ _ _ _ hl
    · exact ih _ c hh

/-- CBC decryption inverts CBC encryption on well-formed blocks. -/
theorem cbcDec_cbcEnc (k0 : AESBlock) (mids : List AESBlock) (klast : AESBlock)
    (h0 : blockWF k0) (hm : ∀ k ∈ mids, blockWF k) (hl : blockWF klast)
    (iv : AESBlock) (hiv : blockWF iv) (ps : List AESBlock)
    (hps : ∀ p ∈ ps, blockWF p) :
    cbcDec k0 mids klast iv (cbcEnc k0 mids klast iv ps) = ps := by
  induction ps generalizing iv with
  | nil => rfl
  | cons p rest ih =>
    rw [cbcEnc, cbcDec]
    rw [aesDecrypt_aesEncrypt k0 mids klast _ h0 hm hl
      (ark_wf p iv (hps p (List.mem_cons_self _ _)) hiv), ark_ark]
    rw [ih _ (aesEncryptCore_wf _ _ _ _ hl) (fun x hx => hps x (List.mem_cons_of_mem _ hx))]

/-- Group a byte string into 16-byte AES blocks (dropping a trailing
partial block; inputs are always padded to a multiple of 16). -/
def bytesToBlocks : List Byte → List AESBlock
  | b0 :: b1 :: b2 :: b3 :: b4 :: b5 :: b6 :: b7 :: b8 :: b9 :: b10 :: b11 :: b12 :: b13 :: b14 :: b15 :: rest =>
    AESBlock.mk b0 b1 b2 b3 b4 b5 b6 b7 b8 b9 b10 b11 b12 b13 b14 b15 :: bytesToBlocks rest
  | _ => []

/-- The sixteen bytes of a block, in order. -/
def blockToBytes (b : AESBlock) : List Byte :=
  [b.s0, b.s1, b.s2, b.s3, b.s4, b.s5, b.s6, b.s7, b.s8, b.s9, b.s10, b.s11, b.s12, b.s13, b.s14, b.s15]

/-- Flatten blocks back to a byte string. -/
def blocksToBytes : List AESBlock → List Byte
  | [] => []
  | b :: rest => blockToBytes b ++ blocksToBytes rest

theorem bytesToBlocks_blocksToBytes (bs : List AESBlock) :
    bytesToBlocks (blocksToBytes bs) = bs := by
  induction bs with
  | nil => rfl
  | cons b rest ih =>
    rw [blocksToBytes, blockToBytes]
    show bytesToBlocks (b.s0 :: b.s1 :: b.s2 :: b.s3 :: b.s4 :: b.s5 :: b.s6 :: b.s7 :: b.s8 :: b.s9 :: b.s10 :: b.s11 :: b.s12 :: b.s13 :: b.s14 :: b.s15 :: blocksToBytes rest) = b :: rest
    rw [bytesToBlocks, ih]

theorem blocksToBytes_bytesToBlocks : ∀ (n : Nat) (l : List Byte), l.length = 16 * n →
    blocksToBytes (bytesToBlocks l) = l := by
  intro n
  induction n with
  | zero =>
    intro l h
    have hl : l = [] := List.eq_nil_of_length_eq_zero (by omega)
    subst hl
    rfl
  | succ m ih =>
    intro l h
    rcases l with _ | ⟨b0, l⟩
    · simp at h
    rcases l with _ | ⟨b1, l⟩
    · simp at h
      omega
    rcases l with _ | ⟨b2, l⟩
    · simp at h
      omega
    rcases l with _ | ⟨b3, l⟩
    · simp at h
      omega
    rcases l with _ | ⟨b4, l⟩
    · simp at h
      omega
    rcases l with _ | ⟨b5, l⟩
    · simp at h
      omega
    rcases l with _ | ⟨b6, l⟩
    · simp at h
      omega
    rcases l with _ | ⟨b7, l⟩
    · simp at h
      omega
    rcases l with _ | ⟨b8, l⟩
    · simp at h
      omega
    rcases l with _ | ⟨b9, l⟩
    · simp at h
      omega
    rcases l with _ | ⟨b10, l⟩
    · simp at h
      omega
    rcases l with _ | ⟨b11, l⟩
    · simp at h
      omega
    rcases l with _ | ⟨b12, l⟩
    · simp at h
      omega
    rcases l with _ | ⟨b13, l⟩
    · simp at h
      omega
    rcases l with _ | ⟨b14, l⟩
    · simp at h
      omega
    rcases l with _ | ⟨b15, l⟩
    · simp at h
      omega
    rw [bytesToBlocks, blocksToBytes, blockToBytes]
    rw [ih l (by simp at h; omega)]
    rfl

theorem bytesToBlocks_wf : ∀ (n : Nat) (l : List Byte), l.length = 16 * n →
    (∀ b ∈ l, b < 256) → ∀ blk ∈ bytesToBlocks l, blockWF blk := by
  intro n
  induction n with
  | zero =>
    intro l h hb blk hblk
    have hl : l = [] := List.eq_nil_of_length_eq_zero (by omega)
    subst hl
    cases hblk
  | succ m ih =>
    intro l h hb blk hblk
    rcases l with _ | ⟨b0, l⟩
    · simp at h
    rcases l with _ | ⟨b1, l⟩
    · simp at h
      omega
    rcases l with _ | ⟨b2, l⟩
    · simp at h
      omega
    rcases l with _ | ⟨b3, l⟩
    · simp at h
      omega
    rcases l with _ | ⟨b4, l⟩
    · simp at h
      omega
    rcases l with _ | ⟨b5, l⟩
    · simp at h
      omega
    rcases l with _ | ⟨b6, l⟩
    · simp at h
      omega
    rcases l with _ | ⟨b7, l⟩
    · simp at h
      omega
    rcases l with _ | ⟨b8, l⟩
    · simp at h
      omega
    rcases l with _ | ⟨b9, l⟩
    · simp at h
      omega
    rcases l with _ | ⟨b10, l⟩
    · simp at h
      omega
    rcases l with _ | ⟨b11, l⟩
    · simp at h
      omega
    rcases l with _ | ⟨b12, l⟩
    · simp at h
      omega
    rcases l with _ | ⟨b13, l⟩
    · simp at h
      omega
    rcases l with _ | ⟨b14, l⟩
    · simp at h
      omega
    rcases l with _ | ⟨b15, l⟩
    · simp at h
      omega
    rw [bytesToBlocks] at hblk
    rcases List.mem_cons.mp hblk with hh | hh
    · subst hh
      refine ⟨hb b0 (by simp), hb b1 (by simp), hb b2 (by simp), hb b3 (by simp), hb b4 (by simp), hb b5 (by simp), hb b6 (by simp), hb b7 (by simp), hb b8 (by simp), hb b9 (by simp), hb b10 (by simp), hb b11 (by simp), hb b12 (by simp), hb b13 (by simp), hb b14 (by simp), hb b15 (by simp)⟩
    · exact ih l (by simp at h; omega) (fun x hx => hb x (by simp [hx])) blk hh

theorem blocksToBytes_lt (bs : List AESBlock) (h : ∀ b ∈ bs, blockWF b) :
    ∀ x ∈ blocksToBytes bs, x < 256 := by
  induction bs with
  | nil => intro x hx; cases hx
  | cons b rest ih =>
    intro x hx
    rw [blocksToBytes] at hx
    rcases List.mem_append.mp hx with hh | hh
    · have hwf := h b (List.mem_cons_self _ _)
      obtain ⟨h0, h1, h2, h3, h4, h5, h6, h7, h8, h9, h10, h11, h12, h13, h14, h15⟩ := hwf
      rw [blockToBytes] at hh
      rcases List.mem_cons.mp hh with rfl | hh
      · exact h0
      rcases List.mem_cons.mp hh with rfl | hh
      · exact h1
      rcases List.mem_cons.mp hh with rfl | hh
      · exact h2
      rcases List.mem_cons.mp hh with rfl | hh
      · exact h3
      rcases List.mem_cons.mp hh with rfl | hh
      · exact h4
      rcases List.mem_cons.mp hh with rfl | hh
      · exact h5
      rcases List.mem_cons.mp hh with rfl | hh
      · exact h6
      rcases List.mem_cons.mp hh with rfl | hh
      · exact h7
      rcases List.mem_cons.mp hh with rfl | hh
      · exact h8
      rcases List.mem_cons.mp hh with rfl | hh
      · exact h9
      rcases List.mem_cons.mp hh with rfl | hh
      · exact h10
      rcases List.mem_cons.mp hh with rfl | hh
      · exact h11
      rcases List.mem_cons.mp hh with rfl | hh
      · exact h12
      rcases List.mem_cons.mp hh with rfl | hh
      · exact h13
      rcases List.mem_cons.mp hh with rfl | hh
      · exact h14
      rcases List.mem_cons.mp hh with rfl | hh
      · exact h15
      cases hh
    · exact ih (fun x hx2 => h x (List.mem_cons_of_mem _ hx2)) x hh

theorem blocksToBytes_length (bs : List AESBlock) :
    (blocksToBytes bs).length = 16 * bs.length := by
  induction bs with
  | nil => rfl
  | cons b rest ih =>
    rw [blocksToBytes, List.length_append, ih, blockToBytes]
    simp [List.length_cons]
    ring

theorem cbcEnc_length (k0 : AESBlock) (mids : List AESBlock) (klast : AESBlock)
    (prev : AESBlock) (ps : List AESBlock) :
    (cbcEnc k0 mids klast prev ps).length = ps.length := by
  induction ps generalizing prev with
  | nil => rfl
  | cons p rest ih =>
    rw [cbcEnc, List.length_cons, List.length_cons, ih]
/-- PKCS#7 padding to a whole number of 16-byte blocks, as applied by
Node's `createCipheriv('aes-256-cbc', ...)` before encryption. -/
def pad16 (l : List Byte) : List Byte :=
  let k := 16 - l.length % 16
  l ++ List.replicate k k

/-- PKCS#7 unpadding, as checked by `createDecipheriv(...).final()`:
the final byte `k` must lie in 1..16 and the last `k` bytes must all
equal `k`; otherwise decryption fails. -/
def unpad16 (l : List Byte) : Option (List Byte) :=
  let k := l.getLastD 0
  if k = 0 ∨ 16 < k ∨ l.length < k then none
  else if l.drop (l.length - k) = List.replicate k k then some (l.take (l.length - k))
  else none

theorem pad16_length (l : List Byte) :
    (pad16 l).length = l.length + (16 - l.length % 16) := by
  simp [pad16]

theorem pad16_mod (l : List Byte) : (pad16 l).length % 16 = 0 := by
  rw [pad16_length]
  omega

theorem unpad16_pad16 (l : List Byte) : unpad16 (pad16 l) = some l := by
  set k := 16 - l.length % 16 with hkdef
  have hk1 : 1 ≤ k := by omega
  have hk2 : k ≤ 16 := by omega
  have hlen : (l ++ List.replicate k k).length = l.length + k := by simp
  have hgl : (l ++ List.replicate k k).getLastD 0 = k := by
    rw [List.getLastD_eq_getLast?, List.getLast?_append, List.getLast?_replicate,
      if_neg (by omega)]
    rfl
  show unpad16 (l ++ List.replicate k k) = some l
  simp only [unpad16, hgl]
  have hcond : ¬(k = 0 ∨ 16 < k ∨ (l ++ List.replicate k k).length < k) := by
    rw [hlen]
    omega
  rw [if_neg hcond]
  simp only [hlen]
  have he : l.length + k - k = l.length := by omega
  rw [he, List.drop_left' rfl, if_pos rfl, List.take_left' rfl]

/-- The all-zero block (the `getD` default; never reached on well-formed
inputs). -/
def zeroBlock : AESBlock := ⟨0, 0, 0, 0, 0, 0, 0, 0, 0, 0, 0, 0, 0, 0, 0, 0⟩

theorem zeroBlock_wf : blockWF zeroBlock := by decide

theorem blocks_getD_wf (bs : List AESBlock) (i : Nat) (h : ∀ b ∈ bs, blockWF b) :
    blockWF (bs.getD i zeroBlock) := by
  induction bs generalizing i with
  | nil => cases i <;> exact zeroBlock_wf
  | cons b rest ih =>
    cases i with
    | zero => exact h b (List.mem_cons_self _ _)
    | succ n =>
      rw [List.getD_cons_succ]
      exact ih n (fun x hx => h x (List.mem_cons_of_mem _ hx))

theorem bytesToBlocks_wfAll (l : List Byte) (h : ∀ b ∈ l, b < 256) :
    ∀ blk ∈ bytesToBlocks l, blockWF blk := by
  induction l using bytesToBlocks.induct with
  | case1 b0 b1 b2 b3 b4 b5 b6 b7 b8 b9 b10 b11 b12 b13 b14 b15 rest ih =>
    intro blk hblk
    rw [bytesToBlocks] at hblk
    rcases List.mem_cons.mp hblk with hh | hh
    · subst hh
      exact ⟨h b0 (by simp), h b1 (by simp), h b2 (by simp), h b3 (by simp),
        h b4 (by simp), h b5 (by simp), h b6 (by simp), h b7 (by simp),
        h b8 (by simp), h b9 (by simp), h b10 (by simp), h b11 (by simp),
        h b12 (by simp), h b13 (by simp), h b14 (by simp), h b15 (by simp)⟩
    · exact ih (fun x hx => h x (by simp [hx])) blk hh
  | case2 l hne =>
    intro blk hblk
    rw [bytesToBlocks] at hblk
    · cases hblk
    · exact hne

theorem bytesToBlocks_length (n : Nat) (l : List Byte) (hlen : l.length = 16 * n) :
    (bytesToBlocks l).length = n := by
  have h1 := blocksToBytes_bytesToBlocks n l hlen
  have h2 := blocksToBytes_length (bytesToBlocks l)
  rw [h1] at h2
  omega

/-- The first round key. -/
def rkFirst (key : List Byte) : AESBlock := (roundKeys key).getD 0 zeroBlock

/-- The thirteen middle round keys. -/
def rkMids (key : List Byte) : List AESBlock := ((roundKeys key).drop 1).take 13

/-- The last round key. -/
def rkLast (key : List Byte) : AESBlock := (roundKeys key).getD 14 zeroBlock

/-- The IV as an AES block. -/
def ivBlock (iv : List Byte) : AESBlock := (bytesToBlocks iv).getD 0 zeroBlock

/-- AES-256-CBC encryption of a byte string: PKCS#7 pad, then CBC over
16-byte blocks (`createCipheriv('aes-256-cbc', key, iv)` with
`update` + `final`). -/
def aesCbcEncryptBytes (key iv pt : List Byte) : List Byte :=
  blocksToBytes (cbcEnc (rkFirst key) (rkMids key) (rkLast key) (ivBlock iv)
    (bytesToBlocks (pad16 pt)))

/-- AES-256-CBC decryption of a byte string: fails (like
`createDecipheriv(...).final()`) when the ciphertext is not a non-zero
multiple of 16 bytes or the padding is invalid. -/
def aesCbcDecryptBytes (key iv ct : List Byte) : Option (List Byte) :=
  if ct.length % 16 = 0 ∧ ct.length ≠ 0 then
    unpad16 (blocksToBytes (cbcDec (rkFirst key) (rkMids key) (rkLast key) (ivBlock iv)
      (bytesToBlocks ct)))
  else none

/-- CBC-with-padding round trip at the byte level. -/
theorem aesCbc_roundtrip (key iv pt : List Byte) (hkey : ∀ b ∈ key, b < 256)
    (hiv : ∀ b ∈ iv, b < 256) (hpt : ∀ b ∈ pt, b < 256) :
    aesCbcDecryptBytes key iv (aesCbcEncryptBytes key iv pt) = some pt := by
  have hrk := roundKeys_wf key hkey
  have h0 : blockWF (rkFirst key) := blocks_getD_wf _ _ hrk
  have hl : blockWF (rkLast key) := blocks_getD_wf _ _ hrk
  have hm : ∀ k ∈ rkMids key, blockWF k := fun k hk2 =>
    hrk k (List.drop_subset _ _ (List.take_subset _ _ hk2))
  have hivb : blockWF (ivBlock iv) := blocks_getD_wf _ _ (bytesToBlocks_wfAll iv hiv)
  have hpad : ∀ b ∈ pad16 pt, b < 256 := by
    intro b hb
    simp only [pad16] at hb
    rcases List.mem_append.mp hb with hh | hh
    · exact hpt b hh
    · have hb2 := List.eq_of_mem_replicate hh
      subst hb2
      exact Nat.lt_of_le_of_lt (Nat.sub_le _ _) (by norm_num)
  have hptblocks := bytesToBlocks_wfAll (pad16 pt) hpad
  have hNlen : (pad16 pt).length = 16 * ((pad16 pt).length / 16) := by
    have := pad16_mod pt
    omega
  have hblen : (bytesToBlocks (pad16 pt)).length = (pad16 pt).length / 16 :=
    bytesToBlocks_length _ _ hNlen
  have hctlen : (aesCbcEncryptBytes key iv pt).length
      = 16 * ((pad16 pt).length / 16) := by
    unfold aesCbcEncryptBytes
    rw [blocksToBytes_length, cbcEnc_length, hblen]
  have hpos : 1 ≤ (pad16 pt).length / 16 := by
    have h16 := pad16_length pt
    have := pad16_mod pt
    omega
  have hc : (aesCbcEncryptBytes key iv pt).length % 16 = 0
      ∧ (aesCbcEncryptBytes key iv pt).length ≠ 0 := by
    rw [hctlen]
    exact ⟨by omega, by omega⟩
  unfold aesCbcDecryptBytes
  rw [if_pos hc]
  unfold aesCbcEncryptBytes
  rw [bytesToBlocks_blocksToBytes,
    cbcDec_cbcEnc _ _ _ h0 hm hl _ hivb _ hptblocks,
    blocksToBytes_bytesToBlocks _ _ hNlen]
  exact unpad16_pad16 pt

/-- The base64 alphabet, in index order. -/
def b64Alphabet : List Char :=
  ['A', 'B', 'C', 'D', 'E', 'F', 'G', 'H', 'I', 'J', 'K', 'L', 'M',
   'N', 'O', 'P', 'Q', 'R', 'S', 'T', 'U', 'V', 'W', 'X', 'Y', 'Z',
   'a', 'b', 'c', 'd', 'e', 'f', 'g', 'h', 'i', 'j', 'k', 'l', 'm',
   'n', 'o', 'p', 'q', 'r', 's', 't', 'u', 'v', 'w', 'x', 'y', 'z',
   '0', '1', '2', '3', '4', '5', '6', '7', '8', '9', '+', '/']

/-- The character for a 6-bit value. -/
def b64Char (s : Nat) : Char := b64Alphabet.getD (s % 64) '='

/-- Index of a character in a list, if present. -/
def idxOf : List Char → Char → Option Nat
  | [], _ => none
  | c :: rest, x => if c = x then some 0 else (idxOf rest x).map (· + 1)

/-- The 6-bit value of a base64 character. -/
def b64Sextet (c : Char) : Option Nat := idxOf b64Alphabet c

/-- Base64 encoding of a byte string (`Buffer.toString('base64')`). -/
def b64encode : List Byte → List Char
  | [] => []
  | [b1] => [b64Char (b1 / 4), b64Char (b1 % 4 * 16), '=', '=']
  | [b1, b2] =>
    [b64Char (b1 / 4), b64Char (b1 % 4 * 16 + b2 / 16), b64Char (b2 % 16 * 4), '=']
  | b1 :: b2 :: b3 :: rest =>
    b64Char (b1 / 4) :: b64Char (b1 % 4 * 16 + b2 / 16)
      :: b64Char (b2 % 16 * 4 + b3 / 64) :: b64Char (b3 % 64) :: b64encode rest

/-- Base64 decoding (`Buffer.from(s, 'base64')`, strict form): groups of
four characters, with `=` padding allowed only in the final group. -/
def b64decode : List Char → Option (List Byte)
  | [] => some []
  | c1 :: c2 :: c3 :: c4 :: rest =>
    if c3 = '=' ∧ c4 = '=' ∧ rest = [] then do
      let s1 ← b64Sextet c1
      let s2 ← b64Sextet c2
      pure [s1 * 4 + s2 / 16]
    else if c4 = '=' ∧ rest = [] then do
      let s1 ← b64Sextet c1
      let s2 ← b64Sextet c2
      let s3 ← b64Sextet c3
      pure [s1 * 4 + s2 / 16, s2 % 16 * 16 + s3 / 4]
    else do
      let s1 ← b64Sextet c1
      let s2 ← b64Sextet c2
      let s3 ← b64Sextet c3
      let s4 ← b64Sextet c4
      let bs ← b64decode rest
      pure ((s1 * 4 + s2 / 16) :: (s2 % 16 * 16 + s3 / 4) :: (s3 % 4 * 64 + s4) :: bs)
  | _ => none

theorem sext1_lt (x : Nat) (hx : x < 256) : x / 4 < 64 := by omega

theorem sext2_lt (x y : Nat) (hy : y < 256) : x % 4 * 16 + y / 16 < 64 := by omega

theorem sext2a_lt (x : Nat) : x % 4 * 16 < 64 := by omega

theorem sext3_lt (x y : Nat) (hy : y < 256) : x % 16 * 4 + y / 64 < 64 := by omega

theorem sext3a_lt (x : Nat) : x % 16 * 4 < 64 := by omega

theorem sext4_lt (x : Nat) : x % 64 < 64 := by omega

theorem b64dec1a (x : Nat) : x / 4 * 4 + x % 4 * 16 / 16 = x := by omega

theorem b64dec1 (x y : Nat) (hy : y < 256) :
    x / 4 * 4 + (x % 4 * 16 + y / 16) / 16 = x / 4 * 4 + x % 4 := by omega

theorem b64dec1' (x y : Nat) (hy : y < 256) :
    x / 4 * 4 + (x % 4 * 16 + y / 16) / 16 = x := by omega

theorem b64dec2a (x y : Nat) (hy : y < 256) :
    (x % 4 * 16 + y / 16) % 16 * 16 + y % 16 * 4 / 4 = y := by omega

theorem b64dec2 (x y z : Nat) (hy : y < 256) (hz : z < 256) :
    (x % 4 * 16 + y / 16) % 16 * 16 + (y % 16 * 4 + z / 64) / 4 = y := by omega

theorem b64dec3 (y z : Nat) (hz : z < 256) :
    (y % 16 * 4 + z / 64) % 4 * 64 + z % 64 = z := by omega

theorem b64Sextet_b64Char : ∀ s < 64, b64Sextet (b64Char s) = some s := by decide

theorem b64Char_ne_eq : ∀ s < 64, b64Char s ≠ '=' := by decide

theorem b64decode_b64encode (l : List Byte) (h : ∀ b ∈ l, b < 256) :
    b64decode (b64encode l) = some l := by
  induction l using b64encode.induct with
  | case1 => rfl
  | case2 b1 =>
    have h1 : b1 < 256 := h b1 (by simp)
    rw [b64encode, b64decode]
    rw [if_pos ⟨rfl, rfl, rfl⟩]
    rw [b64Sextet_b64Char _ (sext1_lt b1 h1), b64Sextet_b64Char _ (sext2a_lt b1)]
    simp only [Option.bind_eq_bind, Option.some_bind]
    congr 1
    rw [b64dec1a b1]
  | case3 b1 b2 =>
    have h1 : b1 < 256 := h b1 (by simp)
    have h2 : b2 < 256 := h b2 (by simp)
    rw [b64encode, b64decode]
    have hne1 : ¬(b64Char (b2 % 16 * 4) = '=' ∧ '=' = '=' ∧ ([] : List Char) = []) :=
      fun hc => b64Char_ne_eq _ (sext3a_lt b2) hc.1
    rw [if_neg hne1, if_pos ⟨rfl, rfl⟩]
    rw [b64Sextet_b64Char _ (sext1_lt b1 h1), b64Sextet_b64Char _ (sext2_lt b1 b2 h2),
      b64Sextet_b64Char _ (sext3a_lt b2)]
    simp only [Option.bind_eq_bind, Option.some_bind]
    congr 1
    rw [b64dec1' b1 b2 h2, b64dec2a b1 b2 h2]
  | case4 b1 b2 b3 rest ih =>
    have h1 : b1 < 256 := h b1 (by simp)
    have h2 : b2 < 256 := h b2 (by simp)
    have h3 : b3 < 256 := h b3 (by simp)
    rw [b64encode, b64decode]
    have hne1 : ¬(b64Char (b2 % 16 * 4 + b3 / 64) = '='
        ∧ b64Char (b3 % 64) = '=' ∧ b64encode rest = []) :=
      fun hc => b64Char_ne_eq _ (sext3_lt b2 b3 h3) hc.1
    have hne2 : ¬(b64Char (b3 % 64) = '=' ∧ b64encode rest = []) :=
      fun hc => b64Char_ne_eq _ (sext4_lt b3) hc.1
    rw [if_neg hne1, if_neg hne2]
    rw [b64Sextet_b64Char _ (sext1_lt b1 h1), b64Sextet_b64Char _ (sext2_lt b1 b2 h2),
      b64Sextet_b64Char _ (sext3_lt b2 b3 h3), b64Sextet_b64Char _ (sext4_lt b3),
      ih (fun x hx => h x (by simp [hx]))]
    simp only [Option.bind_eq_bind, Option.some_bind]
    congr 1
    rw [b64dec1' b1 b2 h2, b64dec2 b1 b2 b3 h2 h3, b64dec3 b2 b3 h3]

/-- The double-quote character (written by code point to keep the JSON
rendering readable in proofs). -/
def quoteChar : Char := Char.ofNat 34

/-- The opening-brace character of a JSON object. -/
def lbraceChar : Char := Char.ofNat 123

/-- The closing-brace character of a JSON object. -/
def rbraceChar : Char := Char.ofNat 125

/-- A JSON number as `JSON.stringify` prints finite numbers without
exponents: optional sign, integer part, optional fractional digits. -/
structure JNum where
  neg : Bool
  ip : Nat
  frac : List Nat
deriving DecidableEq

/-- A JSON value.  Arrays are omitted: no payload of this system carries
arrays (readings are flat objects plus a nested `coordinates` object). -/
inductive Json where
  | null
  | bool (b : Bool)
  | num (n : JNum)
  | str (s : String)
  | obj (fields : List (String × Json))

/-- The decimal digit character for `d`. -/
def digitChar (d : Nat) : Char := Char.ofNat (48 + d)

/-- The decimal digits of `n`, most significant first. -/
def natDigits (n : Nat) : List Char :=
  if h : n < 10 then [digitChar n]
  else natDigits (n / 10) ++ [digitChar (n % 10)]
  termination_by n
  decreasing_by omega

/-- Render a JSON number. -/
def numRender (n : JNum) : List Char :=
  (if n.neg then ['-'] else []) ++ natDigits n.ip
    ++ (if n.frac.isEmpty then [] else '.' :: n.frac.map digitChar)

/-- Render a JSON string (only plain strings needing no escapes occur in
the payloads considered). -/
def strRender (s : String) : List Char := quoteChar :: s.data ++ [quoteChar]

/-- The characters of the literal `null`. -/
def nullChars : List Char := ['n', 'u', 'l', 'l']

/-- The characters of the literal `true`. -/
def trueChars : List Char := ['t', 'r', 'u', 'e']

/-- The characters of the literal `false`. -/
def falseChars : List Char := ['f', 'a', 'l', 's', 'e']

mutual
/-- `JSON.stringify` (compact form, no whitespace). -/
def stringify : Json → List Char
  | .null => nullChars
  | .bool true => trueChars
  | .bool false => falseChars
  | .num n => numRender n
  | .str s => strRender s
  | .obj fields => lbraceChar :: renderFields fields ++ [rbraceChar]

/-- Render the members of a JSON object. -/
def renderFields : List (String × Json) → List Char
  | [] => []
  | [(k, v)] => strRender k ++ ':' :: stringify v
  | (k, v) :: rest => strRender k ++ ':' :: stringify v ++ ',' :: renderFields rest
end

/-- Whether a character is a decimal digit. -/
def isDigitCh (c : Char) : Bool := 48 ≤ c.toNat && c.toNat ≤ 57

/-- The value of a digit character. -/
def digitVal (c : Char) : Nat := c.toNat - 48

/-- Split the longest digit prefix off a character list. -/
def spanDigits : List Char → List Char × List Char
  | [] => ([], [])
  | c :: rest =>
    if isDigitCh c then
      let r := spanDigits rest
      (c :: r.1, r.2)
    else ([], c :: rest)

/-- Parse a non-empty digit sequence as a natural number. -/
def parseNat (s : List Char) : Option (Nat × List Char) :=
  match spanDigits s with
  | (d :: ds, rest) => some ((d :: ds).foldl (fun acc c => 10 * acc + digitVal c) 0, rest)
  | ([], _) => none

/-- Parse the unsigned part of a JSON number. -/
def parseNumCore (s : List Char) : Option (JNum × List Char) :=
  (parseNat s).bind fun p =>
    match p.2 with
    | c :: r2 =>
      if c = '.' then
        match spanDigits r2 with
        | (d1 :: ds, r3) => some (⟨false, p.1, (d1 :: ds).map digitVal⟩, r3)
        | ([], _) => none
      else some (⟨false, p.1, []⟩, c :: r2)
    | [] => some (⟨false, p.1, []⟩, [])

/-- Parse a JSON number. -/
def parseNum (s : List Char) : Option (JNum × List Char) :=
  match s with
  | c :: r =>
    if c = '-' then (parseNumCore r).map fun p => (⟨true, p.1.ip, p.1.frac⟩, p.2)
    else parseNumCore (c :: r)
  | [] => none

/-- Parse the remainder of a JSON string after the opening quote. -/
def parseStrRest : List Char → Option (List Char × List Char)
  | [] => none
  | c :: rest =>
    if c = quoteChar then some ([], rest)
    else (parseStrRest rest).map fun p => (c :: p.1, p.2)

/-- Consume an expected literal character sequence. -/
def dropSeq : List Char → List Char → Option (List Char)
  | [], s => some s
  | p :: ps, c :: cs => if c = p then dropSeq ps cs else none
  | _ :: _, [] => none

mutual
/-- A recursive-descent JSON value parser (a model of `JSON.parse` on
the compact documents produced by `stringify`), with explicit fuel. -/
def parseVal : Nat → List Char → Option (Json × List Char)
  | 0, _ => none
  | fuel + 1, s =>
    match s with
    | [] => none
    | c :: r =>
      if c = 'n' then (dropSeq ['u', 'l', 'l'] r).map fun r2 => (Json.null, r2)
      else if c = 't' then (dropSeq ['r', 'u', 'e'] r).map fun r2 => (Json.bool true, r2)
      else if c = 'f' then (dropSeq ['a', 'l', 's', 'e'] r).map fun r2 => (Json.bool false, r2)
      else if c = quoteChar then
        (parseStrRest r).map fun p => (Json.str (String.mk p.1), p.2)
      else if c = lbraceChar then
        match r with
        | [] => none
        | c2 :: r2 =>
          if c2 = rbraceChar then some (Json.obj [], r2)
          else
            (parseFields fuel (c2 :: r2)).bind fun p =>
              match p.2 with
              | c3 :: r3 => if c3 = rbraceChar then some (Json.obj p.1, r3) else none
              | [] => none
      else (parseNum (c :: r)).map fun p => (Json.num p.1, p.2)

/-- Parse one or more `"key":value` members. -/
def parseFields : Nat → List Char → Option (List (String × Json) × List Char)
  | 0, _ => none
  | fuel + 1, s =>
    match s with
    | [] => none
    | c :: r =>
      if c = quoteChar then
        (parseStrRest r).bind fun pk =>
          match pk.2 with
          | [] => none
          | c2 :: r2 =>
            if c2 = ':' then
              (parseVal fuel r2).bind fun pv =>
                match pv.2 with
                | [] => some ([(String.mk pk.1, pv.1)], [])
                | c3 :: r3 =>
                  if c3 = ',' then
                    (parseFields fuel r3).map fun pf =>
                      ((String.mk pk.1, pv.1) :: pf.1, pf.2)
                  else some ([(String.mk pk.1, pv.1)], c3 :: r3)
            else none
      else none
end

/-- `JSON.parse` on a whole document: the parse must consume the entire
input. -/
def parseJson (s : List Char) : Option Json :=
  match parseVal (s.length + 1) s with
  | some (v, []) => some v
  | _ => none

mutual
/-- Structural size of a JSON value, used as parser fuel. -/
def jsize : Json → Nat
  | .obj fields => 1 + jsizeFields fields
  | _ => 1

/-- Structural size of an object's members. -/
def jsizeFields : List (String × Json) → Nat
  | [] => 0
  | (_, v) :: rest => 1 + jsize v + jsizeFields rest
end

/-- A plain string character: printable ASCII, no quote, no backslash
(so rendering needs no escapes). -/
def charPlain (c : Char) : Bool :=
  c.toNat ≠ 34 && c.toNat ≠ 92 && 32 ≤ c.toNat && c.toNat < 128

/-- A plain string. -/
def strPlain (s : String) : Bool := s.data.all charPlain

/-- Canonical number: digits below 10, no trailing zero in the fraction,
and no negative zero (matching what `JSON.stringify` prints). -/
def numWF (n : JNum) : Bool :=
  n.frac.all (fun d => decide (d < 10))
    && (n.frac.isEmpty || n.frac.getLastD 1 ≠ 0)
    && !(n.neg && n.ip == 0 && n.frac.isEmpty)

mutual
/-- Payloads whose strings are plain and whose numbers are canonical. -/
def jsonWF : Json → Bool
  | .null => true
  | .bool _ => true
  | .num n => numWF n
  | .str s => strPlain s
  | .obj fields => fieldsWF fields

/-- Member lists of well-formed payloads. -/
def fieldsWF : List (String × Json) → Bool
  | [] => true
  | (k, v) :: rest => strPlain k && jsonWF v && fieldsWF rest
end

theorem digitVal_digitChar : ∀ d < 10, digitVal (digitChar d) = d := by decide

theorem isDigitCh_digitChar : ∀ d < 10, isDigitCh (digitChar d) = true := by decide

theorem natDigits_digits (n : Nat) : ∀ c ∈ natDigits n, isDigitCh c = true := by
  induction n using natDigits.induct with
  | case1 n h =>
    intro c hc
    rw [natDigits, dif_pos h] at hc
    have hc2 := List.mem_singleton.mp hc
    subst hc2
    exact isDigitCh_digitChar n h
  | case2 n h ih =>
    intro c hc
    rw [natDigits, dif_neg h] at hc
    rcases List.mem_append.mp hc with hh | hh
    · exact ih c hh
    · have hc2 := List.mem_singleton.mp hh
      subst hc2
      exact isDigitCh_digitChar _ (by omega)

theorem natDigits_ne_nil (n : Nat) : natDigits n ≠ [] := by
  rw [natDigits]
  split
  · simp
  · simp

theorem foldl_natDigits (n : Nat) :
    (natDigits n).foldl (fun acc c => 10 * acc + digitVal c) 0 = n := by
  induction n using natDigits.induct with
  | case1 n h =>
    rw [natDigits, dif_pos h]
    simp [digitVal_digitChar n h]
  | case2 n h ih =>
    rw [natDigits, dif_neg h, List.foldl_append, ih]
    simp only [List.foldl]
    rw [digitVal_digitChar _ (by omega)]
    omega

/-- A list whose head (if any) is not a digit. -/
def noDigitHead : List Char → Prop
  | [] => True
  | c :: _ => isDigitCh c = false

theorem spanDigits_append (ds : List Char) (hds : ∀ c ∈ ds, isDigitCh c = true)
    (rest : List Char) (hrest : noDigitHead rest) :
    spanDigits (ds ++ rest) = (ds, rest) := by
  induction ds with
  | nil =>
    cases rest with
    | nil => rfl
    | cons c r =>
      simp only [List.nil_append, spanDigits]
      rw [if_neg (by simp [show isDigitCh c = false from hrest])]
  | cons c cs ih =>
    simp only [List.cons_append, spanDigits, List.append_eq]
    rw [if_pos (hds c (List.mem_cons_self _ _)),
      ih (fun x hx => hds x (List.mem_cons_of_mem _ hx))]

theorem parseNat_append (n : Nat) (rest : List Char) (hrest : noDigitHead rest) :
    parseNat (natDigits n ++ rest) = some (n, rest) := by
  cases hnd : natDigits n with
  | nil => exact absurd hnd (natDigits_ne_nil n)
  | cons d ds =>
    unfold parseNat
    rw [spanDigits_append (d :: ds) (by rw [← hnd]; exact natDigits_digits n) rest hrest]
    have hf := foldl_natDigits n
    rw [hnd] at hf
    simp [hf]

theorem map_digitVal_digitChar (l : List Nat) (h : ∀ d ∈ l, d < 10) :
    (l.map digitChar).map digitVal = l := by
  induction l with
  | nil => rfl
  | cons d tl ih =>
    simp only [List.map_cons]
    rw [digitVal_digitChar d (h d (List.mem_cons_self _ _)),
      ih (fun x hx => h x (List.mem_cons_of_mem _ hx))]

theorem parseNumCore_render (ip : Nat) (frac : List Nat) (hfr : ∀ d ∈ frac, d < 10)
    (rest : List Char) (hstop : noDigitHead rest) (hdot : ∀ r, rest ≠ '.' :: r) :
    parseNumCore ((natDigits ip
        ++ (if frac.isEmpty then [] else '.' :: frac.map digitChar)) ++ rest)
      = some (⟨false, ip, frac⟩, rest) := by
  cases frac with
  | nil =>
    simp only [List.isEmpty_nil, if_true, List.append_nil]
    unfold parseNumCore
    rw [parseNat_append ip rest hstop]
    cases rest with
    | nil => rfl
    | cons c r2 =>
      have hc : c ≠ '.' := fun h => hdot r2 (by rw [h])
      simp only [Option.some_bind]
      rw [if_neg hc]
  | cons d1 dtl =>
    have hsh : (natDigits ip ++ ('.' :: (d1 :: dtl).map digitChar)) ++ rest
        = natDigits ip ++ '.' :: ((d1 :: dtl).map digitChar ++ rest) := by
      simp [List.append_assoc]
    simp only [List.isEmpty_cons, Bool.false_eq_true, if_false]
    rw [hsh]
    unfold parseNumCore
    rw [parseNat_append ip ('.' :: ((d1 :: dtl).map digitChar ++ rest)) (by
      show isDigitCh '.' = false
      decide)]
    simp only [Option.some_bind]
    rw [if_pos trivial]
    rw [spanDigits_append ((d1 :: dtl).map digitChar) (by
      intro c hc
      rcases List.mem_map.mp hc with ⟨d, hd, rfl⟩
      exact isDigitCh_digitChar d (hfr d hd)) rest hstop]
    simp only [List.map_cons]
    rw [digitVal_digitChar d1 (hfr d1 (List.mem_cons_self _ _)),
      map_digitVal_digitChar dtl (fun d hd => hfr d (List.mem_cons_of_mem _ hd))]

theorem digit_ne_char (c : Char) (hd : isDigitCh c = true) (m : Char)
    (hm : isDigitCh m = false) : c ≠ m := by
  intro h
  subst h
  rw [hd] at hm
  cases hm

theorem numRender_cons (n : JNum) (rest : List Char) :
    ∃ c r, numRender n ++ rest = c :: r ∧ (c = '-' ∨ isDigitCh c = true) := by
  cases hneg : n.neg with
  | true =>
    refine ⟨'-', (natDigits n.ip
      ++ (if n.frac.isEmpty then [] else '.' :: n.frac.map digitChar)) ++ rest, ?_, Or.inl rfl⟩
    simp [numRender, hneg, List.append_assoc]
  | false =>
    cases hnd : natDigits n.ip with
    | nil => exact absurd hnd (natDigits_ne_nil _)
    | cons d ds =>
      refine ⟨d, (ds ++ (if n.frac.isEmpty then [] else '.' :: n.frac.map digitChar)) ++ rest,
        ?_, Or.inr (natDigits_digits n.ip d (by rw [hnd]; exact List.mem_cons_self _ _))⟩
      simp [numRender, hneg, hnd, List.append_assoc]

theorem parseNum_numRender (n : JNum) (hfr : ∀ d ∈ n.frac, d < 10) (rest : List Char)
    (hstop : noDigitHead rest) (hdot : ∀ r, rest ≠ '.' :: r) :
    parseNum (numRender n ++ rest) = some (n, rest) := by
  obtain ⟨neg, ip, frac⟩ := n
  cases neg with
  | true =>
    have hsh : numRender ⟨true, ip, frac⟩ ++ rest
        = '-' :: ((natDigits ip
            ++ (if frac.isEmpty then [] else '.' :: frac.map digitChar)) ++ rest) := by
      simp [numRender, List.append_assoc]
    rw [hsh]
    simp only [parseNum]
    rw [if_pos trivial]
    rw [parseNumCore_render ip frac hfr rest hstop hdot]
    rfl
  | false =>
    cases hnd : natDigits ip with
    | nil => exact absurd hnd (natDigits_ne_nil _)
    | cons d ds =>
      have hd : isDigitCh d = true :=
        natDigits_digits ip d (by rw [hnd]; exact List.mem_cons_self _ _)
      have hsh : numRender ⟨false, ip, frac⟩ ++ rest
          = d :: ((ds ++ (if frac.isEmpty then [] else '.' :: frac.map digitChar)) ++ rest) := by
        simp [numRender, hnd, List.append_assoc]
      rw [hsh]
      simp only [parseNum]
      rw [if_neg (digit_ne_char d hd '-' (by decide))]
      rw [show d :: ((ds ++ (if frac.isEmpty then [] else '.' :: frac.map digitChar)) ++ rest)
          = (natDigits ip ++ (if frac.isEmpty then [] else '.' :: frac.map digitChar)) ++ rest
          from by rw [hnd]; simp [List.append_assoc]]
      exact parseNumCore_render ip frac hfr rest hstop hdot

theorem dropSeq_append (p s : List Char) : dropSeq p (p ++ s) = some s := by
  induction p with
  | nil => rfl
  | cons c cs ih =>
    simp only [List.cons_append, dropSeq, if_pos]
    exact ih

theorem charPlain_ne_quote (c : Char) (h : charPlain c = true) : c ≠ quoteChar := by
  intro he
  subst he
  revert h
  decide

theorem parseStrRest_plain (l : List Char) (hl : ∀ c ∈ l, charPlain c = true)
    (rest : List Char) : parseStrRest (l ++ quoteChar :: rest) = some (l, rest) := by
  induction l with
  | nil =>
    simp only [List.nil_append, parseStrRest]
    rw [if_pos trivial]
  | cons c cs ih =>
    simp only [List.cons_append, parseStrRest, List.append_eq]
    rw [if_neg (charPlain_ne_quote c (hl c (List.mem_cons_self _ _))),
      ih (fun x hx => hl x (List.mem_cons_of_mem _ hx))]
    rfl

/-- The character lists that may follow a rendered value inside a
document produced by `stringify`: end of input, a comma before the next
member, or the closing brace of the enclosing object. -/
def valStop : List Char → Prop
  | [] => True
  | c :: _ => c = ',' ∨ c = rbraceChar

theorem valStop_noDigitHead (rest : List Char) (h : valStop rest) : noDigitHead rest := by
  cases rest with
  | nil => trivial
  | cons c r =>
    show isDigitCh c = false
    rcases h with h | h <;> (subst h; decide)

theorem valStop_ne_dot (rest : List Char) (h : valStop rest) : ∀ r, rest ≠ '.' :: r := by
  intro r hr
  rw [hr] at h
  rcases h with h | h <;> revert h <;> decide

theorem jsize_pos (v : Json) : 1 ≤ jsize v := by
  cases v <;> simp only [jsize] <;> omega

theorem jsize_obj (fields : List (String × Json)) :
    jsize (.obj fields) = 1 + jsizeFields fields := by
  simp only [jsize]

theorem jsizeFields_nil : jsizeFields [] = 0 := by
  simp only [jsizeFields]

theorem jsizeFields_cons (k : String) (v : Json) (fs : List (String × Json)) :
    jsizeFields ((k, v) :: fs) = 1 + jsize v + jsizeFields fs := by
  simp only [jsizeFields]

theorem renderFields_cons_head (k : String) (v : Json) (fs : List (String × Json)) :
    ∃ r, renderFields ((k, v) :: fs) = quoteChar :: r := by
  cases fs with
  | nil =>
    refine ⟨k.data ++ quoteChar :: ':' :: stringify v, ?_⟩
    simp [renderFields, strRender]
  | cons f2 fs2 =>
    refine ⟨k.data ++ quoteChar :: ':' :: (stringify v ++ ',' :: renderFields (f2 :: fs2)), ?_⟩
    simp [renderFields, strRender]

theorem parseVal_parseFields_render : ∀ fuel : Nat,
    (∀ v rest, jsonWF v = true → jsize v ≤ fuel → valStop rest →
      parseVal fuel (stringify v ++ rest) = some (v, rest))
    ∧ (∀ fs rest, fieldsWF fs = true → fs ≠ [] → jsizeFields fs ≤ fuel →
      (∃ r0, rest = rbraceChar :: r0) →
      parseFields fuel (renderFields fs ++ rest) = some (fs, rest)) := by
  intro fuel
  induction fuel with
  | zero =>
    constructor
    · intro v rest hwf hsz hstop
      exact absurd hsz (by have := jsize_pos v; omega)
    · intro fs rest hwf hne hsz hstop
      cases fs with
      | nil => exact absurd rfl hne
      | cons f fs2 =>
        exfalso
        obtain ⟨k, v⟩ := f
        rw [jsizeFields_cons] at hsz
        omega
  | succ fuel ih =>
    obtain ⟨ihP, ihQ⟩ := ih
    constructor
    · intro v rest hwf hsz hstop
      cases v with
      | null =>
        have hs : stringify .null ++ rest = 'n' :: ('u' :: 'l' :: 'l' :: rest) := by
          simp [stringify, nullChars]
        rw [hs]
        simp only [parseVal]
        rw [if_pos trivial,
          show ('u' :: 'l' :: 'l' :: rest) = ['u', 'l', 'l'] ++ rest from rfl,
          dropSeq_append]
        rfl
      | bool b =>
        cases b with
        | true =>
          have hs : stringify (.bool true) ++ rest = 't' :: ('r' :: 'u' :: 'e' :: rest) := by
            simp [stringify, trueChars]
          rw [hs]
          simp only [parseVal]
          rw [if_neg (show ('t' : Char) ≠ 'n' from by decide), if_pos trivial,
            show ('r' :: 'u' :: 'e' :: rest) = ['r', 'u', 'e'] ++ rest from rfl,
            dropSeq_append]
          rfl
        | false =>
          have hs : stringify (.bool false) ++ rest
              = 'f' :: ('a' :: 'l' :: 's' :: 'e' :: rest) := by
            simp [stringify, falseChars]
          rw [hs]
          simp only [parseVal]
          rw [if_neg (show ('f' : Char) ≠ 'n' from by decide),
            if_neg (show ('f' : Char) ≠ 't' from by decide), if_pos trivial,
            show ('a' :: 'l' :: 's' :: 'e' :: rest) = ['a', 'l', 's', 'e'] ++ rest from rfl,
            dropSeq_append]
          rfl
      | num n =>
        simp only [jsonWF] at hwf
        have hfr : ∀ d ∈ n.frac, d < 10 := by
          simp only [numWF, Bool.and_eq_true, List.all_eq_true, decide_eq_true_eq] at hwf
          exact fun d hd => hwf.1.1 d hd
        obtain ⟨c, r, heq, hc⟩ := numRender_cons n rest
        have hs : stringify (.num n) ++ rest = c :: r := by
          simp only [stringify]
          exact heq
        rw [hs]
        simp only [parseVal]
        have hcne : c ≠ 'n' ∧ c ≠ 't' ∧ c ≠ 'f' ∧ c ≠ quoteChar ∧ c ≠ lbraceChar := by
          rcases hc with hc | hc
          · subst hc
            refine ⟨by decide, by decide, by decide, by decide, by decide⟩
          · exact ⟨digit_ne_char _ hc _ (by decide), digit_ne_char _ hc _ (by decide),
              digit_ne_char _ hc _ (by decide), digit_ne_char _ hc _ (by decide),
              digit_ne_char _ hc _ (by decide)⟩
        rw [if_neg hcne.1, if_neg hcne.2.1, if_neg hcne.2.2.1, if_neg hcne.2.2.2.1,
          if_neg hcne.2.2.2.2, ← heq,
          parseNum_numRender n hfr rest (valStop_noDigitHead rest hstop)
            (valStop_ne_dot rest hstop)]
        rfl
      | str s =>
        simp only [jsonWF] at hwf
        have hp : ∀ c ∈ s.data, charPlain c = true := by
          simpa [strPlain, List.all_eq_true] using hwf
        have hs : stringify (.str s) ++ rest = quoteChar :: (s.data ++ quoteChar :: rest) := by
          simp [stringify, strRender]
        rw [hs]
        simp only [parseVal]
        rw [if_neg (show quoteChar ≠ 'n' from by decide),
          if_neg (show quoteChar ≠ 't' from by decide),
          if_neg (show quoteChar ≠ 'f' from by decide), if_pos trivial,
          parseStrRest_plain s.data hp rest]
        rfl
      | obj fields =>
        simp only [jsonWF] at hwf
        rw [jsize_obj] at hsz
        cases fields with
        | nil =>
          have hs : stringify (.obj []) ++ rest = lbraceChar :: (rbraceChar :: rest) := by
            simp [stringify, renderFields]
          rw [hs]
          simp only [parseVal]
          rw [if_neg (show lbraceChar ≠ 'n' from by decide),
            if_neg (show lbraceChar ≠ 't' from by decide),
            if_neg (show lbraceChar ≠ 'f' from by decide),
            if_neg (show lbraceChar ≠ quoteChar from by decide), if_pos trivial, if_pos trivial]
        | cons f fs2 =>
          obtain ⟨k, v⟩ := f
          obtain ⟨rr, hrr⟩ := renderFields_cons_head k v fs2
          have hs : stringify (.obj ((k, v) :: fs2)) ++ rest
              = lbraceChar :: (quoteChar :: (rr ++ rbraceChar :: rest)) := by
            simp only [stringify, List.cons_append, List.append_assoc, hrr]
            simp
          rw [hs]
          simp only [parseVal]
          rw [if_neg (show lbraceChar ≠ 'n' from by decide),
            if_neg (show lbraceChar ≠ 't' from by decide),
            if_neg (show lbraceChar ≠ 'f' from by decide),
            if_neg (show lbraceChar ≠ quoteChar from by decide), if_pos trivial,
            if_neg (show quoteChar ≠ rbraceChar from by decide),
            show quoteChar :: (rr ++ rbraceChar :: rest)
              = renderFields ((k, v) :: fs2) ++ rbraceChar :: rest from by
                rw [hrr, List.cons_append],
            ihQ ((k, v) :: fs2) (rbraceChar :: rest) hwf (List.cons_ne_nil _ _)
              (by rw [jsizeFields_cons] at hsz ⊢; omega) ⟨rest, rfl⟩]
          simp only [Option.some_bind]
          rw [if_pos trivial]
    · intro fs rest hwf hne hsz hstop
      obtain ⟨r0, rfl⟩ := hstop
      cases fs with
      | nil => exact absurd rfl hne
      | cons f fs2 =>
        obtain ⟨k, v⟩ := f
        simp only [fieldsWF, Bool.and_eq_true] at hwf
        have hkp : ∀ c ∈ k.data, charPlain c = true := by
          simpa [strPlain, List.all_eq_true] using hwf.1.1
        have hvwf : jsonWF v = true := hwf.1.2
        rw [jsizeFields_cons] at hsz
        have hjv := jsize_pos v
        cases fs2 with
        | nil =>
          have hs : renderFields [(k, v)] ++ rbraceChar :: r0
              = quoteChar :: (k.data ++ quoteChar
                  :: (':' :: (stringify v ++ rbraceChar :: r0))) := by
            simp [renderFields, strRender]
          rw [hs]
          simp only [parseFields]
          rw [if_pos trivial, parseStrRest_plain k.data hkp _]
          simp only [Option.some_bind]
          rw [if_pos trivial,
            ihP v (rbraceChar :: r0) hvwf (by rw [jsizeFields_nil] at hsz; omega) (Or.inr rfl)]
          simp only [Option.some_bind]
          rw [if_neg (show rbraceChar ≠ ',' from by decide)]
        | cons f3 fs3 =>
          have hs : renderFields ((k, v) :: f3 :: fs3) ++ rbraceChar :: r0
              = quoteChar :: (k.data ++ quoteChar :: (':' :: (stringify v
                  ++ ',' :: (renderFields (f3 :: fs3) ++ rbraceChar :: r0)))) := by
            simp [renderFields, strRender]
          rw [hs]
          simp only [parseFields]
          rw [if_pos trivial, parseStrRest_plain k.data hkp _]
          simp only [Option.some_bind]
          rw [if_pos trivial,
            ihP v (',' :: (renderFields (f3 :: fs3) ++ rbraceChar :: r0)) hvwf
              (by omega) (Or.inl rfl)]
          simp only [Option.some_bind]
          rw [if_pos trivial,
            ihQ (f3 :: fs3) (rbraceChar :: r0) hwf.2 (List.cons_ne_nil _ _)
              (by omega) ⟨r0, rfl⟩]
          rfl

theorem parseVal_stringify (v : Json) (hwf : jsonWF v = true) (fuel : Nat)
    (hsz : jsize v ≤ fuel) : parseVal fuel (stringify v) = some (v, []) := by
  have h := (parseVal_parseFields_render fuel).1 v [] hwf hsz trivial
  rw [List.append_nil] at h
  exact h

mutual
theorem jsize_le_stringify : ∀ v : Json, jsize v ≤ (stringify v).length
  | .null => by simp [jsize, stringify, nullChars]
  | .bool b => by cases b <;> simp [jsize, stringify, trueChars, falseChars]
  | .num n => by
      have h := natDigits_ne_nil n.ip
      have h1 : 1 ≤ (natDigits n.ip).length := by
        cases hd : natDigits n.ip with
        | nil => exact absurd hd h
        | cons a l => simp
      simp only [jsize, stringify, numRender, List.length_append]
      omega
  | .str s => by
      simp only [jsize, stringify, strRender, List.length_cons, List.length_append]
      omega
  | .obj fields => by
      have h := jsizeFields_le_renderFields fields
      simp only [jsize, stringify, List.length_cons, List.length_append]
      omega

theorem jsizeFields_le_renderFields :
    ∀ fs : List (String × Json), jsizeFields fs ≤ (renderFields fs).length
  | [] => by simp [jsizeFields, renderFields]
  | [(k, v)] => by
      have h1 := jsize_le_stringify v
      simp only [jsizeFields, renderFields, strRender, List.length_append,
        List.length_cons]
      omega
  | (k, v) :: f2 :: fs => by
      have h1 := jsize_le_stringify v
      have h2 := jsizeFields_le_renderFields (f2 :: fs)
      simp only [jsizeFields, renderFields, strRender, List.length_append,
        List.length_cons] at h2 ⊢
      omega
end

theorem parseJson_stringify (v : Json) (hwf : jsonWF v = true) :
    parseJson (stringify v) = some v := by
  unfold parseJson
  rw [parseVal_stringify v hwf ((stringify v).length + 1)
    (Nat.le_succ_of_le (jsize_le_stringify v))]

theorem digit_toNat_lt (c : Char) (h : isDigitCh c = true) : c.toNat < 256 := by
  simp only [isDigitCh, Bool.and_eq_true, decide_eq_true_eq] at h
  omega

theorem charPlain_toNat_lt (c : Char) (h : charPlain c = true) : c.toNat < 256 := by
  simp only [charPlain, Bool.and_eq_true, decide_eq_true_eq] at h
  omega

theorem digitChar_toNat_lt : ∀ d < 10, (digitChar d).toNat < 256 := by decide

mutual
theorem stringify_lt : ∀ v : Json, jsonWF v = true → ∀ c ∈ stringify v, c.toNat < 256
  | .null => by
      intro _ c hc
      simp only [stringify] at hc
      exact (by decide : ∀ c ∈ nullChars, c.toNat < 256) c hc
  | .bool b => by
      intro _ c hc
      cases b with
      | true =>
        simp only [stringify] at hc
        exact (by decide : ∀ c ∈ trueChars, c.toNat < 256) c hc
      | false =>
        simp only [stringify] at hc
        exact (by decide : ∀ c ∈ falseChars, c.toNat < 256) c hc
  | .num n => by
      intro hwf c hc
      simp only [jsonWF] at hwf
      have hfr : ∀ d ∈ n.frac, d < 10 := by
        simp only [numWF, Bool.and_eq_true, List.all_eq_true, decide_eq_true_eq] at hwf
        exact fun d hd => hwf.1.1 d hd
      simp only [stringify, numRender, List.mem_append] at hc
      rcases hc with (hc | hc) | hc
      · split at hc
        · simp only [List.mem_singleton] at hc
          subst hc
          decide
        · cases hc
      · exact digit_toNat_lt c (natDigits_digits n.ip c hc)
      · split at hc
        · cases hc
        · rcases List.mem_cons.mp hc with rfl | hc2
          · decide
          · rcases List.mem_map.mp hc2 with ⟨d, hd, rfl⟩
            exact digitChar_toNat_lt d (hfr d hd)
  | .str s => by
      intro hwf c hc
      simp only [jsonWF] at hwf
      have hp : ∀ x ∈ s.data, charPlain x = true := by
        simpa [strPlain, List.all_eq_true] using hwf
      simp only [stringify, strRender, List.mem_cons, List.mem_append,
        List.mem_singleton] at hc
      rcases hc with (rfl | hc) | rfl | h0
      · decide
      · exact charPlain_toNat_lt c (hp c hc)
      · decide
      · cases h0
  | .obj fields => by
      intro hwf c hc
      simp only [jsonWF] at hwf
      simp only [stringify, List.mem_cons, List.mem_append, List.mem_singleton] at hc
      rcases hc with (rfl | hc) | rfl | h0
      · decide
      · exact renderFields_lt fields hwf c hc
      · decide
      · cases h0

theorem renderFields_lt : ∀ fs : List (String × Json), fieldsWF fs = true →
    ∀ c ∈ renderFields fs, c.toNat < 256
  | [] => by
      intro _ c hc
      simp only [renderFields] at hc
      cases hc
  | [(k, v)] => by
      intro hwf c hc
      simp only [fieldsWF, Bool.and_eq_true] at hwf
      have hkp : ∀ x ∈ k.data, charPlain x = true := by
        simpa [strPlain, List.all_eq_true] using hwf.1.1
      simp only [renderFields] at hc
      rcases List.mem_append.mp hc with hc2 | hc2
      · simp only [strRender, List.mem_cons, List.mem_append, List.mem_singleton] at hc2
        rcases hc2 with (rfl | hc2) | rfl | h0
        · decide
        · exact charPlain_toNat_lt c (hkp c hc2)
        · decide
        · cases h0
      · rcases List.mem_cons.mp hc2 with rfl | hc2
        · decide
        · exact stringify_lt v hwf.1.2 c hc2
  | (k, v) :: f2 :: fs => by
      intro hwf c hc
      simp only [fieldsWF, Bool.and_eq_true] at hwf
      have hkp : ∀ x ∈ k.data, charPlain x = true := by
        simpa [strPlain, List.all_eq_true] using hwf.1.1
      simp only [renderFields] at hc
      rcases List.mem_append.mp hc with hc2 | hc2
      · rcases List.mem_append.mp hc2 with hc3 | hc3
        · simp only [strRender, List.mem_cons, List.mem_append, List.mem_singleton] at hc3
          rcases hc3 with (rfl | hc3) | rfl | h0
          · decide
          · exact charPlain_toNat_lt c (hkp c hc3)
          · decide
          · cases h0
        · rcases List.mem_cons.mp hc3 with rfl | hc3
          · decide
          · exact stringify_lt v hwf.1.2 c hc3
      · rcases List.mem_cons.mp hc2 with rfl | hc2
        · decide
        · exact renderFields_lt (f2 :: fs)
            (by simp only [fieldsWF, Bool.and_eq_true]; exact hwf.2) c hc2
end

/-- The bytes of a character list under UTF-8 restricted to the ASCII
payloads at hand (`Buffer.from(s, 'utf-8')`). -/
def strBytes (l : List Char) : List Byte := l.map Char.toNat

/-- The characters of a decrypted byte string (`buffer.toString('utf-8')`
on the ASCII payloads at hand). -/
def bytesChars (b : List Byte) : List Char := b.map Char.ofNat

theorem bytesChars_strBytes (l : List Char) : bytesChars (strBytes l) = l := by
  induction l with
  | nil => rfl
  | cons c cs ih =>
    simp only [strBytes, bytesChars, List.map_cons] at ih ⊢
    rw [Char.ofNat_toNat, ih]

/-- The hard-coded 32-byte AES-256 key of the sensor-data API route
(`Buffer.from('12345678901234567890123456789012', 'utf-8')`). -/
def ENCRYPTION_KEY : List Byte := strBytes "12345678901234567890123456789012".data

/-- The hard-coded 16-byte CBC initialization vector
(`Buffer.from('1234567890123456', 'utf-8')`). -/
def IV : List Byte := strBytes "1234567890123456".data

/-- `encryptData` of the sensor-data API route: `JSON.stringify` the
payload, encrypt with AES-256-CBC (`createCipheriv`, PKCS#7 padding),
return the ciphertext base64-encoded. -/
def encryptData (key iv : List Byte) (data : Json) : List Char :=
  b64encode (aesCbcEncryptBytes key iv (strBytes (stringify data)))

/-- `decryptData` of the forward route: base64-decode, AES-256-CBC
decrypt (`createDecipheriv`; any failure is caught and yields null,
modeled as `none`), then `JSON.parse` the decrypted text. -/
def decryptData (key iv : List Byte) (encryptedData : List Char) : Option Json :=
  (b64decode encryptedData).bind fun ct =>
    (aesCbcDecryptBytes key iv ct).bind fun pt =>
      parseJson (bytesChars pt)

theorem encryptBytes_lt (key iv pt : List Byte) (hkey : ∀ b ∈ key, b < 256) :
    ∀ b ∈ aesCbcEncryptBytes key iv pt, b < 256 := by
  have hlast : blockWF (rkLast key) := blocks_getD_wf _ _ (roundKeys_wf key hkey)
  intro b hb
  unfold aesCbcEncryptBytes at hb
  exact blocksToBytes_lt _ (cbcEnc_wf _ _ _ hlast _ _) b hb

theorem decryptData_encryptData (key iv : List Byte) (x : Json)
    (hkey : ∀ b ∈ key, b < 256) (hiv : ∀ b ∈ iv, b < 256) (hwf : jsonWF x = true) :
    decryptData key iv (encryptData key iv x) = some x := by
  have hpt : ∀ b ∈ strBytes (stringify x), b < 256 := by
    intro b hb
    simp only [strBytes, List.mem_map] at hb
    rcases hb with ⟨c, hc, rfl⟩
    exact stringify_lt x hwf c hc
  unfold decryptData encryptData
  rw [b64decode_b64encode _ (encryptBytes_lt key iv _ hkey)]
  simp only [Option.some_bind]
  rw [aesCbc_roundtrip key iv _ hkey hiv hpt]
  simp only [Option.some_bind]
  rw [bytesChars_strBytes, parseJson_stringify x hwf]

/-- C5: for every well-formed JSON-serializable reading `x`, decrypting
the encryption of `x` — AES-256-CBC with the fixed key and IV, the
ciphertext carried base64-encoded — yields the original reading:
`decryptData(encryptData(x)) = x`. -/
theorem codec_roundtrip (x : Json) (hwf : jsonWF x = true) :
    decryptData ENCRYPTION_KEY IV (encryptData ENCRYPTION_KEY IV x) = some x :=
  decryptData_encryptData ENCRYPTION_KEY IV x (by decide) (by decide) hwf

/-- A concrete sensor reading used to witness the codec round trip. -/
def sampleReading : Json :=
  .obj [("value", .num ⟨false, 23, [5]⟩), ("unit", .str "C"),
    ("timestamp", .str "t0"), ("device", .str "rpi9")]

theorem codec_roundtrip_witness : jsonWF sampleReading = true ∧
    decryptData ENCRYPTION_KEY IV (encryptData ENCRYPTION_KEY IV sampleReading)
      = some sampleReading :=
  ⟨by decide, codec_roundtrip sampleReading (by decide)⟩

/-- JS truthiness test `!x` on a parsed JSON value: `null`, `false`,
`0` (including `-0`) and the empty string are falsy; every object is
truthy. -/
def jsFalsy : Json → Bool
  | .null => true
  | .bool b => !b
  | .num n => n.ip == 0 && n.frac.isEmpty
  | .str s => s == ""
  | .obj _ => false

/-- JS property assignment `o[k] = v` on an object: updates the binding
in place when the key is present (member order kept), appends a new
member otherwise. -/
def setField : List (String × Json) → String → Json → List (String × Json)
  | [], k, v => [(k, v)]
  | (k0, v0) :: rest, k, v =>
    if k0 = k then (k0, v) :: rest else (k0, v0) :: setField rest k v

/-- JS property read `o[k]` on an object: the binding of `k`, if any. -/
def getField : List (String × Json) → String → Option Json
  | [], _ => none
  | (k0, v0) :: rest, k => if k0 = k then some v0 else getField rest k

theorem getField_setField_self (fs : List (String × Json)) (k : String) (v : Json) :
    getField (setField fs k v) k = some v := by
  induction fs with
  | nil =>
    simp only [setField, getField]
    rw [if_pos trivial]
  | cons f rest ih =>
    obtain ⟨k0, v0⟩ := f
    simp only [setField]
    by_cases h : k0 = k
    · rw [if_pos h]
      simp only [getField]
      rw [if_pos h]
    · rw [if_neg h]
      simp only [getField]
      rw [if_neg h, ih]

theorem getField_setField_other (fs : List (String × Json)) (k k' : String) (v : Json)
    (hne : k' ≠ k) : getField (setField fs k' v) k = getField fs k := by
  induction fs with
  | nil =>
    simp only [setField, getField]
    rw [if_neg hne]
  | cons f rest ih =>
    obtain ⟨k0, v0⟩ := f
    simp only [setField]
    by_cases h : k0 = k'
    · rw [if_pos h]
      simp only [getField]
      have hk : k0 ≠ k := by rw [h]; exact hne
      rw [if_neg hk, if_neg hk]
    · rw [if_neg h]
      simp only [getField]
      by_cases h2 : k0 = k
      · rw [if_pos h2, if_pos h2]
      · rw [if_neg h2, if_neg h2, ih]

/-- The JSON body posted to the forward route:
`{ topic, message, device }`. -/
structure ForwardBody where
  topic : String
  message : List Char
  device : String

/-- The observable outcome of the forward route's POST handler: the HTTP
status and, when a broadcast happens, the emitted `sensor_data` event
(topic and payload). -/
structure FwdOutcome where
  status : Nat
  emitted : Option (String × Json)

/-- The forward route's POST handler: reject a body with a missing or
empty field (400); decrypt the message, rejecting failures and falsy
payloads (400); then stamp `device` (overwriting any existing value),
`connectionType := 'custom-mqtt'` and a defaulted `timestamp` onto the
payload and broadcast it as a `sensor_data` event.  A truthy primitive
payload cannot take the property assignments: strict-mode module code
throws a `TypeError`, caught by the handler's outer `try` as a 500. -/
def forwardPOST (key iv : List Byte) (now : String) (body : ForwardBody) : FwdOutcome :=
  if body.topic == "" || body.message.isEmpty || body.device == "" then
    ⟨400, none⟩
  else
    match decryptData key iv body.message with
    | none => ⟨400, none⟩
    | some payload =>
      if jsFalsy payload then ⟨400, none⟩
      else
        match payload with
        | .obj fields =>
          let f1 := setField fields "device" (.str body.device)
          let f2 := setField f1 "connectionType" (.str "custom-mqtt")
          let ts : Json :=
            match getField f2 "timestamp" with
            | some t => if jsFalsy t then .str now else t
            | none => .str now
          ⟨200, some (body.topic, .obj (setField f2 "timestamp" ts))⟩
        | _ => ⟨500, none⟩

/-- The proxy's per-client `message` handler: a message arriving on a
registered client's subscription is forwarded to the forward route with
the `device` field set to the name the broker was registered under. -/
def onMessage (name topic : String) (message : List Char) : ForwardBody :=
  ⟨topic, message, name⟩

theorem b64encode_ne_nil (l : List Byte) (h : l ≠ []) : b64encode l ≠ [] := by
  rcases l with _ | ⟨b1, _ | ⟨b2, _ | ⟨b3, rest⟩⟩⟩
  · exact absurd rfl h
  · simp [b64encode]
  · simp [b64encode]
  · simp [b64encode]

theorem aesCbcEncryptBytes_length (key iv pt : List Byte) :
    (aesCbcEncryptBytes key iv pt).length = 16 * ((pad16 pt).length / 16) := by
  unfold aesCbcEncryptBytes
  rw [blocksToBytes_length, cbcEnc_length,
    bytesToBlocks_length ((pad16 pt).length / 16) (pad16 pt)
      (by have := pad16_mod pt; omega)]

theorem encryptData_ne_nil (key iv : List Byte) (x : Json) : encryptData key iv x ≠ [] := by
  unfold encryptData
  apply b64encode_ne_nil
  intro hnil
  have hlen := congrArg List.length hnil
  rw [aesCbcEncryptBytes_length] at hlen
  simp only [List.length_nil] at hlen
  have h16 := pad16_length (strBytes (stringify x))
  have hm := pad16_mod (strBytes (stringify x))
  omega

/-- C10: a message from a dynamically registered custom broker that
decrypts to an object payload is broadcast with its `device` field set
to the name the broker was registered under — any `device` value inside
the encrypted payload is overwritten — and its `connectionType` field
set to `custom-mqtt`. -/
theorem forwarded_payload_stamped (key iv : List Byte) (now name topic : String)
    (msg : List Char) (fields : List (String × Json))
    (hdec : decryptData key iv msg = some (.obj fields))
    (htopic : (topic == "") = false) (hname : (name == "") = false) :
    ∃ pf,
      (forwardPOST key iv now (onMessage name topic msg)).emitted
          = some (topic, .obj pf)
        ∧ getField pf "device" = some (.str name)
        ∧ getField pf "connectionType" = some (.str "custom-mqtt") := by
  have hmsg : msg.isEmpty = false := by
    cases hm : msg with
    | nil =>
      rw [hm] at hdec
      simp [decryptData, b64decode, aesCbcDecryptBytes] at hdec
    | cons a l => rfl
  simp only [forwardPOST, onMessage, htopic, hname, hmsg, Bool.or_self, Bool.or_false,
    Bool.false_or, if_false, hdec]
  simp only [jsFalsy, Bool.false_eq_true, if_false]
  refine ⟨_, rfl, ?_, ?_⟩
  · rw [getField_setField_other _ _ _ _ (by decide),
      getField_setField_other _ _ _ _ (by decide),
      getField_setField_self]
  · rw [getField_setField_other _ _ _ _ (by decide),
      getField_setField_self]

/-- A reading carrying a spoofed `device` field, used to witness that
the forward route overwrites it. -/
def spoofedReading : Json :=
  .obj [("value", .num ⟨false, 7, []⟩), ("device", .str "intruder"),
    ("timestamp", .str "t1")]

theorem forwarded_payload_stamped_witness :
    ∃ pf,
      (forwardPOST ENCRYPTION_KEY IV "now0"
          (onMessage "rpi9" "sensorflow/demo/rpi9/temperature"
            (encryptData ENCRYPTION_KEY IV spoofedReading))).emitted
          = some ("sensorflow/demo/rpi9/temperature", .obj pf)
        ∧ getField pf "device" = some (.str "rpi9")
        ∧ getField pf "connectionType" = some (.str "custom-mqtt") :=
  forwarded_payload_stamped ENCRYPTION_KEY IV "now0" "rpi9"
    "sensorflow/demo/rpi9/temperature" (encryptData ENCRYPTION_KEY IV spoofedReading)
    [("value", .num ⟨false, 7, []⟩), ("device", .str "intruder"), ("timestamp", .str "t1")]
    (decryptData_encryptData ENCRYPTION_KEY IV spoofedReading (by decide) (by decide)
      (by decide))
    (by decide) (by decide)
